import Mathlib

/-!
# Verification of the sgrp ANSI-SGR → HTML converter

A shallow embedding of the streaming SGR parser and its string adapter
(`SGRToStringTransformer`), translated from the TypeScript source.  Chunks of
input are modelled as `List Char` (JavaScript strings are sequences of code
units; all characters relevant to parsing are in the BMP).  The observer
callbacks `onText` / `onStyleChange` are modelled by returning an ordered list
of events, and the adapter's `controller.enqueue` calls by an ordered list of
output pieces.  SGR numeric parameters are modelled as `Nat`: every parameter
field is a string of at most 64 decimal digits, and every comparison performed
by the source (`=== k` for `k ≤ 107`, range checks against 255 together with
`Number.isSafeInteger`) yields the same result on the exact natural number as
on the JavaScript float produced by `parseInt`.  The `console.error`
diagnostics are side effects with no influence on output; the code paths that
log them are exactly the `none` / dump paths of the embedding.
-/

namespace Sgrp

/-- `Colors` — a set of css colors, one slot per ANSI color name. -/
structure Colors where
  black : String
  red : String
  green : String
  yellow : String
  blue : String
  magenta : String
  cyan : String
  white : String
deriving DecidableEq

/-- `Palette` — the standard and bright color sets. -/
structure Palette where
  standard : Colors
  bright : Colors
deriving DecidableEq

/-- `defaultPalette` from the source. -/
def defaultPalette : Palette :=
  { standard :=
      { black := "#0c0c0c", red := "#c50f1f", green := "#13a10e", yellow := "#c19c00"
        blue := "#0037da", magenta := "#881798", cyan := "#3a96dd", white := "#cccccc" }
    bright :=
      { black := "#767676", red := "#e74856", green := "#16c60c", yellow := "#f9f1a5"
        blue := "#3b78ff", magenta := "#b4009e", cyan := "#61d6d6", white := "#f2f2f2" } }

/-- The `Style` class: the six visual attributes tracked by the parser.
`fontWeight` ranges over `""`, `"bolder"`, `"lighter"`; `fontStyle` over `""`,
`"italic"`; the default-constructed value has every field unset. -/
@[ext]
structure Style where
  fontWeight : String := ""
  fontStyle : String := ""
  textDecorationUnderline : Bool := false
  textDecorationLineThrough : Bool := false
  color : String := ""
  backgroundColor : String := ""
deriving DecidableEq

/-- `Style.equals`: field-wise comparison of all six fields. -/
def Style.equals (a o : Style) : Bool :=
  a.fontWeight == o.fontWeight && a.fontStyle == o.fontStyle &&
    a.textDecorationUnderline == o.textDecorationUnderline &&
    a.textDecorationLineThrough == o.textDecorationLineThrough &&
    a.color == o.color && a.backgroundColor == o.backgroundColor

/-- `Style.isEmpty`: true iff every field is at its default. -/
def Style.isEmpty (s : Style) : Bool :=
  s.fontWeight == "" && s.fontStyle == "" && !s.textDecorationUnderline &&
    !s.textDecorationLineThrough && s.color == "" && s.backgroundColor == ""

/-- The `textDecoration` getter. -/
def Style.textDecoration (s : Style) : String :=
  if s.textDecorationUnderline && s.textDecorationLineThrough then "underline line-through"
  else if s.textDecorationUnderline then "underline"
  else if s.textDecorationLineThrough then "line-through"
  else ""

/-- `Style.toCssStyle`: the inline `style="..."` attribute text. -/
def Style.toCssStyle (s : Style) : String :=
  "style=\"" ++
    (if s.fontWeight != "" then "font-weight:" ++ s.fontWeight ++ ";" else "") ++
    (if s.fontStyle != "" then "font-style:" ++ s.fontStyle ++ ";" else "") ++
    (if s.textDecorationUnderline || s.textDecorationLineThrough then
      "text-decoration:" ++ s.textDecoration ++ ";"
    else "") ++
    (if s.color != "" then "color:" ++ s.color ++ ";" else "") ++
    (if s.backgroundColor != "" then "background-color:" ++ s.backgroundColor ++ ";" else "") ++
    "\""

/-! ## Escaping layer -/

/-- Membership in the html-special part of the `escapes` table. -/
def isHtmlSpecial (c : Char) : Bool :=
  c == '<' || c == '>' || c == '&' || c == '\'' || c == '"'

/-- Membership in the control-code character class `[\x00-\x07\x0E-\x1F]`.
Codes 0x08–0x0D are deliberately absent (their table entries are commented
out in the source). -/
def isEscapedControl (c : Char) : Bool :=
  c.toNat ≤ 0x07 || (0x0E ≤ c.toNat && c.toNat ≤ 0x1F)

/-- The `escapes` lookup table.  The html-special entries are literal; the
control-code entries `"\x00" ↦ "␀"`, …, `"\x1F" ↦ "␟"` all follow the
single rule `v ↦ 0x2400 + v`, which the uniform branch reproduces entry by
entry. -/
def escTable (c : Char) : List Char :=
  if c = '<' then "&lt;".data
  else if c = '>' then "&gt;".data
  else if c = '&' then "&amp;".data
  else if c = '\'' then "&#39;".data
  else if c = '"' then "&quot;".data
  else if isEscapedControl c then [Char.ofNat (0x2400 + c.toNat)]
  else [c]

/-- `escapeControl`: replaces only the control-code class. -/
def escapeControl (x : List Char) : List Char :=
  x.flatMap fun c => if isEscapedControl c then escTable c else [c]

/-- `escapeControlHtml`: replaces the class `[\x00-\x07\x0E-\x1F<>&'"]`. -/
def escapeControlHtml (x : List Char) : List Char :=
  x.flatMap fun c => if isEscapedControl c || isHtmlSpecial c then escTable c else [c]

/-- `escapeHtml`: replaces the class `[<>&'"]`. -/
def escapeHtml (x : List Char) : List Char :=
  x.flatMap fun c => if isHtmlSpecial c then escTable c else [c]

/-- The escaper chosen by the `SGRToStringTransformer` constructor from
`options.escapeControlCodes`. -/
def escaperOf (escapeControlCodes : Bool) : List Char → List Char :=
  if escapeControlCodes then escapeControlHtml else escapeHtml

/-- `isU8Number`: an integer in 0–255 (nonnegativity and safe-integer-ness are
automatic for `Nat`). -/
def isU8Number (x : Nat) : Bool := x ≤ 255

/-! ## SGR parameter interpretation -/

/-- Decimal rendering `rgb(r,g,b)` as produced by the template literal. -/
def rgbStr (r g b : Nat) : String :=
  "rgb(" ++ toString r ++ "," ++ toString g ++ "," ++ toString b ++ ")"

/-- `Parser.parseCustomColor(parameters, i)`: interprets the colorspace
sub-sequence following a 38/48 parameter at index `i`.  Returns the index of
the last consumed parameter together with the css color, or `none` on any
malformed sub-sequence (each `none` path logs a `console.error` in the
source). -/
def parseCustomColor (pal : Palette) (parameters : List Nat) (i : Nat) :
    Option (Nat × String) :=
  match parameters.get? (i + 1) with
  | none => none
  | some colorspace =>
    -- the source's `switch (colorspace)` dispatches on equality with 2 and 5
    if colorspace = 2 then
      match parameters.get? (i + 2), parameters.get? (i + 3), parameters.get? (i + 4) with
      | some r, some g, some b =>
        if isU8Number r then
          if isU8Number g then
            if isU8Number b then some (i + 4, rgbStr r g b) else none
          else none
        else none
      | _, _, _ => none
    else if colorspace = 5 then
      match parameters.get? (i + 2) with
      | none => none
      | some v =>
        if v = 0 then some (i + 2, pal.standard.black)
        else if v = 1 then some (i + 2, pal.standard.red)
        else if v = 2 then some (i + 2, pal.standard.green)
        else if v = 3 then some (i + 2, pal.standard.yellow)
        else if v = 4 then some (i + 2, pal.standard.blue)
        else if v = 5 then some (i + 2, pal.standard.magenta)
        else if v = 6 then some (i + 2, pal.standard.cyan)
        else if v = 7 then some (i + 2, pal.standard.white)
        else if v = 8 then some (i + 2, pal.bright.black)
        else if v = 9 then some (i + 2, pal.bright.red)
        else if v = 10 then some (i + 2, pal.bright.green)
        else if v = 11 then some (i + 2, pal.bright.yellow)
        else if v = 12 then some (i + 2, pal.bright.blue)
        else if v = 13 then some (i + 2, pal.bright.magenta)
        else if v = 14 then some (i + 2, pal.bright.cyan)
        else if v = 15 then some (i + 2, pal.bright.white)
        else if 16 ≤ v ∧ v ≤ 231 then
          let rest := v - 16
          let b := rest % 6 * 51
          let rest2 := rest / 6
          let g := rest2 % 6 * 51
          let rest3 := rest2 / 6
          let r := rest3 % 6 * 51
          some (i + 2, rgbStr r g b)
        else if 232 ≤ v ∧ v ≤ 255 then
          let c := (v - 232) * 11
          some (i + 2, rgbStr c c c)
        else none
    else none

/-- The action taken by one arm of the `parseSgrParameters` switch: a direct
field update, the 38/48 extended-color sub-parse, or the silent default. -/
inductive SgrCase where
  | set (u : Style → Style)
  | customFg
  | customBg
  | ignore

/-- The body of the `parseSgrParameters` switch, one arm per SGR code. -/
def sgrCase (pal : Palette) (p : Nat) : SgrCase :=
  match p with
  | 0 => .set fun st =>
      { st with fontWeight := "", fontStyle := "", textDecorationLineThrough := false,
                textDecorationUnderline := false, color := "", backgroundColor := "" }
  | 1 => .set fun st => { st with fontWeight := "bolder" }
  | 2 => .set fun st => { st with fontWeight := "lighter" }
  | 3 => .set fun st => { st with fontStyle := "italic" }
  | 4 => .set fun st => { st with textDecorationUnderline := true }
  | 9 => .set fun st => { st with textDecorationLineThrough := true }
  | 22 => .set fun st => { st with fontWeight := "" }
  | 23 => .set fun st => { st with fontStyle := "" }
  | 24 => .set fun st => { st with textDecorationUnderline := false }
  | 29 => .set fun st => { st with textDecorationLineThrough := false }
  | 30 => .set fun st => { st with color := pal.standard.black }
  | 31 => .set fun st => { st with color := pal.standard.red }
  | 32 => .set fun st => { st with color := pal.standard.green }
  | 33 => .set fun st => { st with color := pal.standard.yellow }
  | 34 => .set fun st => { st with color := pal.standard.blue }
  | 35 => .set fun st => { st with color := pal.standard.magenta }
  | 36 => .set fun st => { st with color := pal.standard.cyan }
  | 37 => .set fun st => { st with color := pal.standard.white }
  | 38 => .customFg
  | 39 => .set fun st => { st with color := "" }
  | 40 => .set fun st => { st with backgroundColor := pal.standard.black }
  | 41 => .set fun st => { st with backgroundColor := pal.standard.red }
  | 42 => .set fun st => { st with backgroundColor := pal.standard.green }
  | 43 => .set fun st => { st with backgroundColor := pal.standard.yellow }
  | 44 => .set fun st => { st with backgroundColor := pal.standard.blue }
  | 45 => .set fun st => { st with backgroundColor := pal.standard.magenta }
  | 46 => .set fun st => { st with backgroundColor := pal.standard.cyan }
  | 47 => .set fun st => { st with backgroundColor := pal.standard.white }
  | 48 => .customBg
  | 49 => .set fun st => { st with backgroundColor := "" }
  | 90 => .set fun st => { st with color := pal.bright.black }
  | 91 => .set fun st => { st with color := pal.bright.red }
  | 92 => .set fun st => { st with color := pal.bright.green }
  | 93 => .set fun st => { st with color := pal.bright.yellow }
  | 94 => .set fun st => { st with color := pal.bright.blue }
  | 95 => .set fun st => { st with color := pal.bright.magenta }
  | 96 => .set fun st => { st with color := pal.bright.cyan }
  | 97 => .set fun st => { st with color := pal.bright.white }
  | 100 => .set fun st => { st with backgroundColor := pal.bright.black }
  | 101 => .set fun st => { st with backgroundColor := pal.bright.red }
  | 102 => .set fun st => { st with backgroundColor := pal.bright.green }
  | 103 => .set fun st => { st with backgroundColor := pal.bright.yellow }
  | 104 => .set fun st => { st with backgroundColor := pal.bright.blue }
  | 105 => .set fun st => { st with backgroundColor := pal.bright.magenta }
  | 106 => .set fun st => { st with backgroundColor := pal.bright.cyan }
  | 107 => .set fun st => { st with backgroundColor := pal.bright.white }
  | _ => .ignore

/-- The `for` loop of `parseSgrParameters`, folding parameter effects onto the
copied style left to right.  `fuel` bounds the number of iterations; the loop
index `i` strictly increases at every step, so `parameters.length + 1` units
always suffice. -/
def applyFrom (pal : Palette) (parameters : List Nat) :
    Nat → Nat → Style → Style
  | 0, _, newStyle => newStyle
  | fuel + 1, i, newStyle =>
    match parameters.get? i with
    | none => newStyle
    | some p =>
      match sgrCase pal p with
      | .set u => applyFrom pal parameters fuel (i + 1) (u newStyle)
      | .customFg =>
        match parseCustomColor pal parameters i with
        | none => newStyle
        | some (i', c) => applyFrom pal parameters fuel (i' + 1) { newStyle with color := c }
      | .customBg =>
        match parseCustomColor pal parameters i with
        | none => newStyle
        | some (i', c) =>
          applyFrom pal parameters fuel (i' + 1) { newStyle with backgroundColor := c }
      | .ignore => applyFrom pal parameters fuel (i + 1) newStyle

/-- `Parser.parseSgrParameters`: applies a parameter list to a copy of the
current style. -/
def parseSgrParameters (pal : Palette) (st : Style) (parameters : List Nat) : Style :=
  applyFrom pal parameters (parameters.length + 1) 0 st

/-! ## The CSI parameter buffer -/

/-- The ESC control character. -/
def escCh : Char := '\x1B'

/-- Membership in the CSI parameter-byte class `[0-9;]`. -/
def isParamByte (c : Char) : Bool :=
  (0x30 ≤ c.toNat && c.toNat ≤ 0x39) || c == ';'

/-- Index of the first character satisfying `p` (the JavaScript
`indexOf`/`search` result, with `none` for −1). -/
def firstIdx (p : Char → Bool) : List Char → Option Nat
  | [] => none
  | c :: rest => if p c then some 0 else (firstIdx p rest).map (· + 1)

/-- `String.prototype.split(";")` on the parameter buffer. -/
def splitSemicolons : List Char → List (List Char)
  | [] => [[]]
  | c :: rest =>
    if c = ';' then [] :: splitSemicolons rest
    else
      match splitSemicolons rest with
      | f :: fs => (c :: f) :: fs
      | [] => [[c]]

/-- `parseInt(i, 10)` on a nonempty all-digit field. -/
def parseDecimal (cs : List Char) : Nat :=
  cs.foldl (fun a c => a * 10 + (c.toNat - 0x30)) 0

/-- The parameter list computed by `handleSgr` from the CSI buffer: split on
`;`, empty fields (and the fully empty buffer) read as `0`. -/
def paramsOfArgs (csiArgs : List Char) : List Nat :=
  if csiArgs.length > 0 then
    (splitSemicolons csiArgs).map fun f => if f.length > 0 then parseDecimal f else 0
  else [0]

/-! ## The parser state machine -/

/-- The three-state tagged union. -/
inductive State where
  | Text
  | Esc
  | Csi
deriving DecidableEq

/-- Events delivered to the consumer: `onText` and `onStyleChange` calls, in
order. -/
inductive Event where
  | text (t : List Char)
  | style (s : Style)
deriving DecidableEq

/-- The mutable fields of the abstract `Parser` class (the palette is a
separate parameter since it is fixed for the parser's lifetime). -/
structure PState where
  state : State := .Text
  csiArgs : List Char := []
  csiCommand : List Char := []
  style : Style := {}
deriving DecidableEq

/-- The fresh parser state. -/
def initP : PState := {}

/-- `csiArgLenLimit`. -/
def csiArgLenLimit : Nat := 64

/-- `Parser.dumpUnknownCsi`: re-emit `ESC [` + buffer + pending final byte
verbatim, clear the buffer, return to `Text`. -/
def dumpUnknownCsi (p : PState) : PState × List Event :=
  ({ p with csiArgs := [], csiCommand := [], state := .Text },
    [.text (escCh :: '[' :: (p.csiArgs ++ p.csiCommand))])

/-- `Parser.handleSgr`: defensively re-check the buffer, split it into numeric
parameters, fold them onto a copy of the style, and publish the new style iff
it differs from the current one. -/
def handleSgr (pal : Palette) (p : PState) : PState × List Event :=
  if !(p.csiArgs.all isParamByte) then dumpUnknownCsi p
  else
    let parameters := paramsOfArgs p.csiArgs
    let newStyle := parseSgrParameters pal p.style parameters
    if p.style.equals newStyle then
      ({ p with csiArgs := [], csiCommand := [], state := .Text }, [])
    else
      ({ p with style := newStyle, csiArgs := [], csiCommand := [], state := .Text },
        [.style newStyle])

/-- `Parser.handleText`: emit everything before the first ESC as text; on ESC,
consume it and enter `Esc`.  Returns the unconsumed remainder. -/
def handleText (p : PState) (chunk : List Char) : PState × List Event × List Char :=
  match firstIdx (fun c => c == escCh) chunk with
  | none => (p, [.text chunk], [])
  | some i => ({ p with state := .Esc }, [.text (chunk.take i)], chunk.drop (i + 1))

/-- `Parser.handleEsc`: a following `[` enters `Csi`; anything else re-emits
the lone ESC and resumes in `Text` on the current character. -/
def handleEsc (p : PState) (chunk : List Char) : PState × List Event × List Char :=
  match chunk with
  | [] => (p, [], [])
  | c :: rest =>
    if c = '[' then ({ p with state := .Csi }, [], rest)
    else ({ p with state := .Text }, [.text [escCh]], c :: rest)

/-- `Parser.handleCsi`: greedily consume parameter bytes subject to the
64-byte limit; a non-parameter byte is the final byte (`m` → SGR, anything
else → verbatim dump). -/
def handleCsi (pal : Palette) (p : PState) (chunk : List Char) :
    PState × List Event × List Char :=
  let spaceLeft := csiArgLenLimit - p.csiArgs.length
  let commandIdx := firstIdx (fun c => !isParamByte c) chunk
  let argsChunk := match commandIdx with | none => chunk | some i => chunk.take i
  if argsChunk.length > spaceLeft then
    let r := dumpUnknownCsi p
    (r.1, r.2, chunk)
  else
    let p1 := { p with csiArgs := p.csiArgs ++ argsChunk }
    match commandIdx with
    | some i =>
      let cmd := chunk.getD i ' '
      let p2 := { p1 with csiCommand := [cmd] }
      let r := if cmd = 'm' then handleSgr pal p2 else dumpUnknownCsi p2
      (r.1, r.2, chunk.drop (i + 1))
    | none => (p1, [], [])

/-- One iteration of the `while` loop in `Parser.push`. -/
def pushStep (pal : Palette) (p : PState) (chunk : List Char) :
    PState × List Event × List Char :=
  match p.state with
  | .Text => handleText p chunk
  | .Esc => handleEsc p chunk
  | .Csi => handleCsi pal p chunk

/-- The `while (chunk.length > 0)` loop of `Parser.push`.  Every iteration
either consumes at least one character or moves towards `Text` without
growing the chunk, so `2 * chunk.length + 2` fuel units always suffice. -/
def pushAux (pal : Palette) : Nat → PState → List Char → PState × List Event
  | 0, p, _ => (p, [])
  | fuel + 1, p, chunk =>
    match chunk with
    | [] => (p, [])
    | c :: rest =>
      let r := pushStep pal p (c :: rest)
      let r2 := pushAux pal fuel r.1 r.2.2
      (r2.1, r.2.1 ++ r2.2)

/-- `Parser.push`. -/
def push (pal : Palette) (p : PState) (chunk : List Char) : PState × List Event :=
  pushAux pal (2 * chunk.length + 2) p chunk

/-- `Parser.finalize`: resolve outstanding partial state at end of stream. -/
def finalizeP (p : PState) : PState × List Event :=
  match p.state with
  | .Text => (p, [])
  | .Esc => (p, [.text [escCh]])
  | .Csi => dumpUnknownCsi p

/-- Feeding a sequence of chunks one `push` call at a time. -/
def feedPush (pal : Palette) (p : PState) : List (List Char) → PState × List Event
  | [] => (p, [])
  | chunk :: rest =>
    let r := push pal p chunk
    let r2 := feedPush pal r.1 rest
    (r2.1, r.2 ++ r2.2)

/-! ## The string adapter (`SGRToStringTransformer`)

Each `controller.enqueue` call of the adapter is recorded as one `Piece`;
the final string is the concatenation of the pieces' renderings. -/

/-- One string enqueued by the adapter: an escaped text run, an opening
`<span style="...">`, or a closing `</span>`. -/
inductive Piece where
  | text (t : List Char)
  | spanOpen (s : Style)
  | spanClose
deriving DecidableEq

/-- The characters of one enqueued string. -/
def Piece.render : Piece → List Char
  | .text t => t
  | .spanOpen s => ("<span " ++ s.toCssStyle ++ ">").data
  | .spanClose => "</span>".data

/-- The string produced by a piece list. -/
def flatPieces (ps : List Piece) : List Char := ps.flatMap Piece.render

/-- `onText` / `onStyleChange` of `SGRToStringTransformer`, with the `inSpan`
flag threaded explicitly. -/
def renderEvent (escapeControlCodes : Bool) (inSpan : Bool) :
    Event → Bool × List Piece
  | .text t => (inSpan, [.text (escaperOf escapeControlCodes t)])
  | .style s =>
    (!s.isEmpty,
      (if inSpan then [.spanClose] else []) ++ (if !s.isEmpty then [.spanOpen s] else []))

/-- Rendering an ordered event list through the adapter. -/
def renderEvents (escapeControlCodes : Bool) (inSpan : Bool) :
    List Event → Bool × List Piece
  | [] => (inSpan, [])
  | e :: rest =>
    let r := renderEvent escapeControlCodes inSpan e
    let r2 := renderEvents escapeControlCodes r.1 rest
    (r2.1, r.2 ++ r2.2)

/-- The full pipeline's event stream: feed every chunk, then `finalize`. -/
def pipelineEvents (pal : Palette) (chunks : List (List Char)) : List Event :=
  (feedPush pal initP chunks).2 ++ (finalizeP (feedPush pal initP chunks).1).2

/-- The full `SGRToStringTransformer` run: all `transform` calls followed by
`flush`, which renders the finalize events and closes a still-open span. -/
def pipelinePieces (pal : Palette) (escapeControlCodes : Bool)
    (chunks : List (List Char)) : List Piece :=
  (renderEvents escapeControlCodes false (pipelineEvents pal chunks)).2
    ++ (if (renderEvents escapeControlCodes false (pipelineEvents pal chunks)).1
        then [.spanClose] else [])

/-- The concatenated string output (as characters) of `sgrToString`. -/
def pipelineOutput (pal : Palette) (escapeControlCodes : Bool)
    (chunks : List (List Char)) : List Char :=
  flatPieces (pipelinePieces pal escapeControlCodes chunks)

/-! ## Single-character semantics (proof auxiliary)

`stepChar` gives the effect of pushing one character; `run` folds it over a
character list.  It is the anchor for the chunk-boundary-invariance proof:
`push` is proved equivalent to `run` up to coalescing of adjacent text
events, and `run` is trivially invariant under re-chunking. -/

/-- The effect of `push` on a single character, derived from the state
machine.  The `Csi` cases reuse `handleSgr` / `dumpUnknownCsi` verbatim. -/
def stepChar (pal : Palette) (p : PState) (c : Char) : PState × List Event :=
  match p.state with
  | .Text =>
    if c = escCh then ({ p with state := .Esc }, [])
    else (p, [.text [c]])
  | .Esc =>
    if c = '[' then ({ p with state := .Csi }, [])
    else if c = escCh then ({ p with state := .Esc }, [.text [escCh]])
    else ({ p with state := .Text }, [.text [escCh], .text [c]])
  | .Csi =>
    if isParamByte c then
      if 1 > csiArgLenLimit - p.csiArgs.length then
        -- the single parameter byte no longer fits: dump, then the byte is
        -- re-processed as ordinary text
        let r := dumpUnknownCsi p
        (r.1, r.2 ++ [.text [c]])
      else ({ p with csiArgs := p.csiArgs ++ [c] }, [])
    else
      let p2 := { p with csiCommand := [c] }
      if c = 'm' then handleSgr pal p2 else dumpUnknownCsi p2

/-- Folding `stepChar` over a character list. -/
def run (pal : Palette) (p : PState) : List Char → PState × List Event
  | [] => (p, [])
  | c :: rest =>
    let r := stepChar pal p c
    let r2 := run pal r.1 rest
    (r2.1, r.2 ++ r2.2)

/-! ## Canonical event streams

Adjacent text events are merged and empty ones dropped; style events are
kept in place.  Two event streams with the same canonical form carry the
same text content and the same style changes in the same order. -/

/-- Prepend a text run to a canonical event list, merging and dropping
empties. -/
def consText (t : List Char) (es : List Event) : List Event :=
  if t = [] then es
  else
    match es with
    | .text u :: r => .text (t ++ u) :: r
    | _ => .text t :: es

/-- The canonical form of an event list. -/
def canon : List Event → List Event
  | [] => []
  | .text t :: r => consText t (canon r)
  | .style s :: r => .style s :: canon r

/-- The styles published by an event list, in order. -/
def styleEvents : List Event → List Style
  | [] => []
  | .text _ :: r => styleEvents r
  | .style s :: r => s :: styleEvents r

/-! ## Basic lemmas: `firstIdx` -/

theorem firstIdx_none {p : Char → Bool} :
    ∀ {l : List Char}, firstIdx p l = none → ∀ c ∈ l, p c = false := by
  intro l
  induction l with
  | nil => intro _ c hc; cases hc
  | cons a rest ih =>
    intro h c hc
    simp only [firstIdx] at h
    cases hpa : p a with
    | true => rw [hpa] at h; simp at h
    | false =>
      rw [hpa] at h
      simp only [Bool.false_eq_true, if_false] at h
      cases hfi : firstIdx p rest with
      | none =>
        rcases List.mem_cons.mp hc with rfl | hc
        · exact hpa
        · exact ih hfi c hc
      | some j => rw [hfi] at h; simp at h

theorem firstIdx_some {p : Char → Bool} :
    ∀ {l : List Char} {i : Nat}, firstIdx p l = some i →
      i < l.length ∧ (∀ c ∈ l.take i, p c = false) ∧ p (l.getD i ' ') = true := by
  intro l
  induction l with
  | nil => intro i h; exact Option.noConfusion h
  | cons a rest ih =>
    intro i h
    simp only [firstIdx] at h
    cases hpa : p a with
    | true =>
      rw [hpa] at h
      simp only [if_true, Option.some.injEq] at h
      subst h
      exact ⟨by simp, by simp, by simpa using hpa⟩
    | false =>
      rw [hpa] at h
      simp only [Bool.false_eq_true, if_false] at h
      cases hfi : firstIdx p rest with
      | none => rw [hfi] at h; simp at h
      | some j =>
        rw [hfi] at h
        simp at h
        subst h
        obtain ⟨h1, h2, h3⟩ := ih hfi
        refine ⟨by simpa using h1, ?_, by simpa using h3⟩
        intro c hc
        simp only [List.take_succ_cons] at hc
        rcases List.mem_cons.mp hc with rfl | hc
        · exact hpa
        · exact h2 c hc

theorem take_getD_drop {l : List Char} {i : Nat} (h : i < l.length) :
    l.take i ++ l.getD i ' ' :: l.drop (i + 1) = l := by
  induction l generalizing i with
  | nil => simp at h
  | cons a rest ih =>
    cases i with
    | zero => simp
    | succ j =>
      simp only [List.take_succ_cons, List.getD_cons_succ, List.drop_succ_cons,
        List.cons_append, List.cons.injEq, true_and]
      exact ih (by simpa using h)

/-! ## Basic lemmas: canonical event streams -/

theorem consText_nil_left (es : List Event) : consText [] es = es := by
  simp [consText]

theorem consText_nil_right {t : List Char} (ht : ¬t = []) : consText t [] = [.text t] := by
  rw [consText, if_neg ht]
  intro u r h
  exact List.noConfusion h

theorem consText_text {t : List Char} (ht : ¬t = []) (u : List Char) (r : List Event) :
    consText t (.text u :: r) = .text (t ++ u) :: r := by
  rw [consText, if_neg ht]

theorem consText_style {t : List Char} (ht : ¬t = []) (s : Style) (r : List Event) :
    consText t (.style s :: r) = .text t :: .style s :: r := by
  rw [consText, if_neg ht]
  intro u r' h
  simp at h

theorem consText_consText (t u : List Char) (es : List Event) :
    consText t (consText u es) = consText (t ++ u) es := by
  by_cases ht : t = []
  · subst ht; simp [consText_nil_left]
  · by_cases hu : u = []
    · subst hu; simp [consText_nil_left]
    · have htu : ¬(t ++ u = []) := by simp [ht]
      cases es with
      | nil =>
        rw [consText_nil_right hu, consText_text ht, consText_nil_right htu]
      | cons e r =>
        cases e with
        | text v =>
          rw [consText_text hu, consText_text ht, consText_text htu, List.append_assoc]
        | style s =>
          rw [consText_style hu, consText_text ht, consText_style htu]

/-- Gluing two canonical forms. -/
def canonApp : List Event → List Event → List Event
  | [], f => f
  | .text t :: r, f => consText t (canonApp r f)
  | .style s :: r, f => .style s :: canonApp r f

theorem canonApp_consText (t : List Char) (es f : List Event) :
    canonApp (consText t es) f = consText t (canonApp es f) := by
  by_cases ht : t = []
  · subst ht; simp [consText_nil_left]
  · cases es with
    | nil =>
      rw [consText_nil_right ht]
      show consText t f = consText t (canonApp [] f)
      rfl
    | cons e r =>
      cases e with
      | text u =>
        rw [consText_text ht]
        show consText (t ++ u) (canonApp r f) = consText t (consText u (canonApp r f))
        rw [consText_consText]
      | style s =>
        rw [consText_style ht]
        show consText t (.style s :: canonApp r f) = consText t (canonApp (.style s :: r) f)
        rfl

theorem canon_append (x y : List Event) :
    canon (x ++ y) = canonApp (canon x) (canon y) := by
  induction x with
  | nil => simp [canon, canonApp]
  | cons e r ih =>
    cases e with
    | text t =>
      show consText t (canon (r ++ y)) = canonApp (consText t (canon r)) (canon y)
      rw [ih, canonApp_consText]
    | style s =>
      show Event.style s :: canon (r ++ y) = canonApp (Event.style s :: canon r) (canon y)
      rw [ih]; rfl

theorem canon_append_congr {x x' y y' : List Event}
    (hx : canon x = canon x') (hy : canon y = canon y') :
    canon (x ++ y) = canon (x' ++ y') := by
  rw [canon_append, canon_append, hx, hy]

theorem canon_text_cons (t : List Char) (r : List Event) :
    canon (.text t :: r) = consText t (canon r) := rfl

theorem canon_texts (cs : List Char) (tail : List Event) :
    canon ((cs.map fun c => Event.text [c]) ++ tail) = consText cs (canon tail) := by
  induction cs with
  | nil => simp [consText_nil_left]
  | cons c rest ih =>
    show consText [c] (canon ((rest.map fun c => Event.text [c]) ++ tail)) = _
    rw [ih, consText_consText]
    rfl

theorem styleEvents_append (x y : List Event) :
    styleEvents (x ++ y) = styleEvents x ++ styleEvents y := by
  induction x with
  | nil => rfl
  | cons e r ih =>
    cases e with
    | text t => simpa [styleEvents] using ih
    | style s => simp [styleEvents, ih]

theorem styleEvents_consText (t : List Char) (es : List Event) :
    styleEvents (consText t es) = styleEvents es := by
  by_cases ht : t = []
  · simp [ht, consText_nil_left]
  · cases es with
    | nil => rw [consText_nil_right ht]; rfl
    | cons e r =>
      cases e with
      | text u => rw [consText_text ht]; rfl
      | style s => rw [consText_style ht]; rfl

theorem styleEvents_canon (es : List Event) :
    styleEvents (canon es) = styleEvents es := by
  induction es with
  | nil => rfl
  | cons e r ih =>
    cases e with
    | text t =>
      show styleEvents (consText t (canon r)) = styleEvents r
      rw [styleEvents_consText, ih]
    | style s =>
      show s :: styleEvents (canon r) = s :: styleEvents r
      rw [ih]

/-! ## The parser-state invariant -/

/-- States reachable by the parser: no pending final byte, a bounded
all-parameter-byte buffer, empty outside `Csi`. -/
def goodP (p : PState) : Prop :=
  p.csiCommand = [] ∧ p.csiArgs.length ≤ csiArgLenLimit ∧
    p.csiArgs.all isParamByte = true ∧ (p.state ≠ .Csi → p.csiArgs = [])

instance : DecidablePred goodP := fun p => by unfold goodP; infer_instance

theorem goodP_initP : goodP initP := by decide

theorem paramByte_ne_esc {c : Char} (h : isParamByte c = true) : ¬(c = escCh) := by
  intro hc
  subst hc
  simp [isParamByte, escCh] at h

theorem goodP_dumpUnknownCsi (p : PState) : goodP (dumpUnknownCsi p).1 := by
  refine ⟨rfl, ?_, rfl, fun _ => rfl⟩
  simp [dumpUnknownCsi, csiArgLenLimit]

theorem goodP_handleSgr (pal : Palette) (p : PState) : goodP (handleSgr pal p).1 := by
  rw [handleSgr]
  split
  · exact goodP_dumpUnknownCsi p
  · dsimp only
    split
    · exact ⟨rfl, by simp [csiArgLenLimit], rfl, fun _ => rfl⟩
    · exact ⟨rfl, by simp [csiArgLenLimit], rfl, fun _ => rfl⟩

theorem goodP_stepChar {pal : Palette} {p : PState} (c : Char) (hg : goodP p) :
    goodP (stepChar pal p c).1 := by
  obtain ⟨hcmd, hlen, hall, hempty⟩ := hg
  cases hs : p.state with
  | Text =>
    have he : p.csiArgs = [] := hempty (by rw [hs]; exact fun h => State.noConfusion h)
    simp only [stepChar, hs]
    by_cases hc : c = escCh
    · rw [if_pos hc]; exact ⟨hcmd, hlen, hall, fun _ => he⟩
    · rw [if_neg hc]; exact ⟨hcmd, hlen, hall, fun _ => he⟩
  | Esc =>
    have he : p.csiArgs = [] := hempty (by rw [hs]; exact fun h => State.noConfusion h)
    simp only [stepChar, hs]
    by_cases hb : c = '['
    · rw [if_pos hb]; exact ⟨hcmd, hlen, hall, fun _ => he⟩
    · rw [if_neg hb]
      by_cases hc : c = escCh
      · rw [if_pos hc]; exact ⟨hcmd, hlen, hall, fun _ => he⟩
      · rw [if_neg hc]; exact ⟨hcmd, hlen, hall, fun _ => he⟩
  | Csi =>
    simp only [stepChar, hs]
    by_cases hpb : isParamByte c = true
    · rw [if_pos hpb]
      by_cases hfull : 1 > csiArgLenLimit - p.csiArgs.length
      · rw [if_pos hfull]
        exact goodP_dumpUnknownCsi p
      · rw [if_neg hfull]
        refine ⟨hcmd, ?_, ?_, fun h => absurd rfl h⟩
        · simp only [List.length_append, List.length_cons, List.length_nil]
          simp only [csiArgLenLimit] at hfull hlen ⊢
          omega
        · simp only [List.all_append, hall, Bool.true_and, List.all_cons, hpb,
            List.all_nil, Bool.and_true]
    · rw [if_neg hpb]
      by_cases hm : c = 'm'
      · rw [if_pos hm]
        exact goodP_handleSgr pal _
      · rw [if_neg hm]
        exact goodP_dumpUnknownCsi _

theorem goodP_run {pal : Palette} :
    ∀ {cs : List Char} {p : PState}, goodP p → goodP (run pal p cs).1 := by
  intro cs
  induction cs with
  | nil => intro p hg; exact hg
  | cons c rest ih => intro p hg; exact ih (goodP_stepChar c hg)

/-! ## Characterizing `run` on bulk inputs -/

theorem run_append (pal : Palette) (x y : List Char) (p : PState) :
    run pal p (x ++ y)
      = ((run pal (run pal p x).1 y).1, (run pal p x).2 ++ (run pal (run pal p x).1 y).2) := by
  induction x generalizing p with
  | nil => simp [run]
  | cons c rest ih =>
    simp only [List.cons_append, run, List.append_eq]
    rw [ih]
    simp [List.append_assoc]

theorem run_textFree {pal : Palette} {p : PState} (hs : p.state = .Text)
    {cs : List Char} (hfree : ∀ c ∈ cs, (c == escCh) = false) :
    run pal p cs = (p, cs.map fun c => Event.text [c]) := by
  induction cs with
  | nil => rfl
  | cons c rest ih =>
    have hc : ¬(c = escCh) := by
      have := hfree c (by simp)
      simpa using this
    have hstep : stepChar pal p c = (p, [.text [c]]) := by
      rw [stepChar, hs]
      simp only [hc, if_false]
    show (let r := stepChar pal p c
          let r2 := run pal r.1 rest
          (r2.1, r.2 ++ r2.2)) = _
    rw [hstep]
    have := ih (fun c hc => hfree c (by simp [hc]))
    simp only [this, List.map_cons, List.singleton_append]

theorem run_csiFits {pal : Palette} :
    ∀ {cs : List Char} {p : PState}, p.state = .Csi → cs.all isParamByte = true →
      p.csiArgs.length + cs.length ≤ csiArgLenLimit →
      run pal p cs = ({ p with csiArgs := p.csiArgs ++ cs }, []) := by
  intro cs
  induction cs with
  | nil => intro p _ _ _; simp [run]
  | cons c rest ih =>
    intro p hs hall hfit
    simp only [List.all_cons, Bool.and_eq_true] at hall
    have hlen : ¬(1 > csiArgLenLimit - p.csiArgs.length) := by
      simp only [List.length_cons, csiArgLenLimit] at hfit ⊢
      omega
    have hstep : stepChar pal p c = ({ p with csiArgs := p.csiArgs ++ [c] }, []) := by
      rw [stepChar, hs]
      simp only [hall.1, if_true, hlen, if_false]
    show (let r := stepChar pal p c
          let r2 := run pal r.1 rest
          (r2.1, r.2 ++ r2.2)) = _
    rw [hstep]
    have hrec := ih (p := { p with csiArgs := p.csiArgs ++ [c] }) hs hall.2
      (by simp only [List.length_append, List.length_cons, List.length_nil] at hfit ⊢; omega)
    simp only [hrec, List.append_assoc, List.singleton_append, List.nil_append]

theorem canon_textTexts (A : List Char) (c : Char) (rest : List Char) :
    canon (Event.text A :: Event.text [c] :: (rest.map fun d => Event.text [d]))
      = consText (A ++ c :: rest) [] := by
  rw [canon_text_cons, canon_text_cons]
  have hm : canon (rest.map fun d => Event.text [d]) = consText rest [] := by
    have h := canon_texts rest []
    simpa using h
  rw [hm, consText_consText, consText_consText]
  congr 1
  simp

theorem run_csiOverflow {pal : Palette} :
    ∀ {cs : List Char} {p : PState}, p.state = .Csi → p.csiCommand = [] →
      cs.all isParamByte = true → p.csiArgs.length ≤ csiArgLenLimit →
      csiArgLenLimit < p.csiArgs.length + cs.length →
      (run pal p cs).1 = { p with state := .Text, csiArgs := [], csiCommand := [] } ∧
        canon (run pal p cs).2 = canon [.text (escCh :: '[' :: (p.csiArgs ++ cs))] := by
  intro cs
  induction cs with
  | nil =>
    intro p _ _ _ hle hgt
    simp only [List.length_nil, Nat.add_zero] at hgt
    omega
  | cons c rest ih =>
    intro p hs hcmd hall hle hgt
    simp only [List.all_cons, Bool.and_eq_true] at hall
    by_cases hfull : 1 > csiArgLenLimit - p.csiArgs.length
    · -- buffer already full: dump, then the tail is plain text
      have hstep : stepChar pal p c =
          ((dumpUnknownCsi p).1, (dumpUnknownCsi p).2 ++ [.text [c]]) := by
        rw [stepChar, hs]
        simp only [hall.1, if_true, hfull, if_true]
      have hfree : ∀ d ∈ rest, (d == escCh) = false := by
        intro d hd
        have := List.all_eq_true.mp hall.2 d hd
        simpa using paramByte_ne_esc this
      have hrest : run pal (dumpUnknownCsi p).1 rest
          = ((dumpUnknownCsi p).1, rest.map fun d => Event.text [d]) :=
        run_textFree rfl hfree
      constructor
      · show (run pal (stepChar pal p c).1 rest).1 = _
        rw [hstep]
        simp only [hrest]
        rfl
      · show canon ((stepChar pal p c).2 ++ (run pal (stepChar pal p c).1 rest).2) = _
        rw [hstep]
        simp only [hrest]
        rw [dumpUnknownCsi]
        simp only [hcmd, List.append_nil, List.cons_append, List.nil_append]
        have hpayload : (escCh :: '[' :: p.csiArgs) ++ c :: rest
            = escCh :: '[' :: (p.csiArgs ++ c :: rest) := by simp
        rw [canon_textTexts, hpayload, canon_text_cons]
        rfl
    · -- append the byte and recurse
      have hstep : stepChar pal p c = ({ p with csiArgs := p.csiArgs ++ [c] }, []) := by
        rw [stepChar, hs]
        simp only [hall.1, if_true, hfull, if_false]
      have hrec := ih (p := { p with csiArgs := p.csiArgs ++ [c] }) hs hcmd hall.2
        (by simp only [List.length_append, List.length_cons, List.length_nil,
              csiArgLenLimit] at hfull hle ⊢; omega)
        (by simp only [List.length_append, List.length_cons, List.length_nil] at hgt ⊢; omega)
      constructor
      · show (run pal (stepChar pal p c).1 rest).1 = _
        rw [hstep]
        exact hrec.1
      · show canon ((stepChar pal p c).2 ++ (run pal (stepChar pal p c).1 rest).2) = _
        rw [hstep]
        simp only [List.nil_append]
        rw [hrec.2]
        simp [List.append_assoc]

theorem pushAux_nil (pal : Palette) (fuel : Nat) (p : PState) :
    pushAux pal fuel p [] = (p, []) := by
  cases fuel <;> rfl

theorem canon_textMap (A : List Char) (cs : List Char) :
    canon (Event.text A :: cs.map fun d => Event.text [d]) = consText (A ++ cs) [] := by
  rw [canon_text_cons]
  have hm : canon (cs.map fun d => Event.text [d]) = consText cs [] := by
    simpa using canon_texts cs []
  rw [hm, consText_consText]

theorem canon_text_eq_map (cs : List Char) :
    canon [Event.text cs] = canon (cs.map fun d => Event.text [d]) := by
  rw [show ([Event.text cs] : List Event)
        = Event.text cs :: (([] : List Char).map fun d => Event.text [d]) from rfl,
    canon_textMap]
  cases cs with
  | nil => rfl
  | cons c rest =>
    rw [show ((c :: rest).map fun d => Event.text [d])
          = Event.text [c] :: (rest.map fun d => Event.text [d]) from rfl,
      canon_textMap]
    simp

theorem dumpUnknownCsi_state (p : PState) : (dumpUnknownCsi p).1.state = .Text := rfl

theorem handleSgr_state (pal : Palette) (p : PState) :
    (handleSgr pal p).1.state = .Text := by
  rw [handleSgr]
  split
  · rfl
  · dsimp only
    split
    · rfl
    · rfl

theorem ne_esc_beq {c : Char} (h : ¬(c = escCh)) : (c == escCh) = false := by
  simp [h]

theorem ifStateLe (q : PState) : (if q.state = State.Text then 0 else 1) ≤ 1 := by
  split <;> omega

/-- Bulk processing agrees with the single-character semantics: same final
state, and the same events up to coalescing of adjacent text runs. -/
theorem pushAux_run (pal : Palette) :
    ∀ (fuel : Nat) (p : PState) (chunk : List Char), goodP p →
      2 * chunk.length + (if p.state = State.Text then 0 else 1) < fuel →
      (pushAux pal fuel p chunk).1 = (run pal p chunk).1 ∧
        canon (pushAux pal fuel p chunk).2 = canon (run pal p chunk).2 := by
  intro fuel
  induction fuel with
  | zero => intro p chunk _ h; omega
  | succ n ih =>
    intro p chunk hg hfuel
    obtain ⟨hcmd, hlen, hall, hempty⟩ := hg
    cases chunk with
    | nil => rw [pushAux_nil]; exact ⟨rfl, rfl⟩
    | cons c rest =>
    cases hs : p.state with
    | Text =>
      rw [if_pos hs] at hfuel
      have hps : pushStep pal p (c :: rest) = handleText p (c :: rest) := by
        rw [pushStep, hs]
      have he : p.csiArgs = [] := hempty (by rw [hs]; exact fun h => State.noConfusion h)
      cases hidx : firstIdx (fun d => d == escCh) (c :: rest) with
      | none =>
        have hht : handleText p (c :: rest) = (p, [.text (c :: rest)], []) := by
          rw [handleText, hidx]
        have hrun : run pal p (c :: rest) = (p, (c :: rest).map fun d => Event.text [d]) :=
          run_textFree hs (firstIdx_none hidx)
        constructor
        · simp only [pushAux, hps, hht, pushAux_nil, hrun]
        · simp only [pushAux, hps, hht, pushAux_nil, hrun]
          rw [List.append_nil, canon_text_eq_map]
      | some i =>
        obtain ⟨hlt, htake, hget⟩ := firstIdx_some hidx
        have hd : (c :: rest).getD i ' ' = escCh := by
          have := hget
          simpa using this
        have hdec : (c :: rest).take i ++ escCh :: (c :: rest).drop (i + 1) = c :: rest := by
          have h0 := @take_getD_drop (c :: rest) _ hlt
          rw [hd] at h0
          exact h0
        have hht : handleText p (c :: rest)
            = ({ p with state := .Esc }, [.text ((c :: rest).take i)],
                (c :: rest).drop (i + 1)) := by
          rw [handleText, hidx]
        have hg1 : goodP { p with state := State.Esc } :=
          ⟨hcmd, hlen, hall, fun _ => he⟩
        have hrec := ih { p with state := State.Esc } ((c :: rest).drop (i + 1)) hg1
          (by
            refine Nat.lt_of_le_of_lt (Nat.add_le_add_left (ifStateLe _) _) ?_
            simp only [List.length_drop, List.length_cons] at hfuel ⊢
            omega)
        have hpre : run pal p ((c :: rest).take i)
            = (p, ((c :: rest).take i).map fun d => Event.text [d]) :=
          run_textFree hs htake
        have hesc : run pal p (escCh :: (c :: rest).drop (i + 1))
            = ((run pal { p with state := State.Esc } ((c :: rest).drop (i + 1))).1,
                [] ++ (run pal { p with state := State.Esc } ((c :: rest).drop (i + 1))).2) := by
          have hstep : stepChar pal p escCh = ({ p with state := State.Esc }, []) := by
            rw [stepChar, hs]
            simp
          simp only [run, hstep]
        constructor
        · show (pushAux pal n _ _).1 = _
          simp only [pushAux, hps, hht]
          rw [hrec.1]
          conv_rhs => rw [← hdec]
          rw [run_append, hpre, hesc]
        · simp only [pushAux, hps, hht]
          conv_rhs => rw [← hdec]
          rw [run_append, hpre, hesc]
          show canon (Event.text ((c :: rest).take i) :: (pushAux pal n _ _).2) = _
          rw [show Event.text ((c :: rest).take i) :: (pushAux pal n _ _).2
                = [Event.text ((c :: rest).take i)] ++ (pushAux pal n _ _).2 from rfl]
          refine canon_append_congr ?_ ?_
          · exact canon_text_eq_map ((c :: rest).take i)
          · rw [hrec.2]
            rw [List.nil_append]
    | Esc =>
      rw [if_neg (by rw [hs]; exact fun h => State.noConfusion h)] at hfuel
      have hps : pushStep pal p (c :: rest) = handleEsc p (c :: rest) := by
        rw [pushStep, hs]
      have he : p.csiArgs = [] := hempty (by rw [hs]; exact fun h => State.noConfusion h)
      by_cases hb : c = '['
      · have hhe : handleEsc p (c :: rest) = ({ p with state := .Csi }, [], rest) := by
          rw [handleEsc, if_pos hb]
        have hg1 : goodP { p with state := State.Csi } :=
          ⟨hcmd, hlen, hall, fun h => he⟩
        have hrec := ih { p with state := State.Csi } rest hg1
          (by
            refine Nat.lt_of_le_of_lt (Nat.add_le_add_left (ifStateLe _) _) ?_
            simp only [List.length_cons] at hfuel ⊢
            omega)
        have hstep : stepChar pal p c = ({ p with state := State.Csi }, []) := by
          simp only [stepChar, hs]
          rw [if_pos hb]
        simp only [pushAux, hps, hhe, run, hstep]
        exact ⟨hrec.1, by simpa using hrec.2⟩
      · have hhe : handleEsc p (c :: rest)
            = ({ p with state := .Text }, [.text [escCh]], c :: rest) := by
          rw [handleEsc, if_neg hb]
        have hg1 : goodP { p with state := State.Text } :=
          ⟨hcmd, hlen, hall, fun _ => he⟩
        have hrec := ih { p with state := State.Text } (c :: rest) hg1
          (by
            have h0 : (if ({ p with state := State.Text } : PState).state = State.Text
                then 0 else 1) = 0 := rfl
            rw [h0]
            simp only [List.length_cons] at hfuel ⊢
            omega)
        by_cases hc : c = escCh
        · have hstep : stepChar pal p c = ({ p with state := State.Esc }, [.text [escCh]]) := by
            simp only [stepChar, hs]
            rw [if_neg hb, if_pos hc]
          have hstep2 : stepChar pal { p with state := State.Text } c
              = ({ p with state := State.Esc }, []) := by
            rw [stepChar]
            show (if c = escCh then _ else _) = _
            rw [if_pos hc]
          have hrun2 : run pal { p with state := State.Text } (c :: rest)
              = ((run pal { p with state := State.Esc } rest).1,
                  [] ++ (run pal { p with state := State.Esc } rest).2) := by
            simp only [run, hstep2]
          have hrun21 : (run pal { p with state := State.Text } (c :: rest)).1
              = (run pal { p with state := State.Esc } rest).1 := by rw [hrun2]
          have hrun22 : (run pal { p with state := State.Text } (c :: rest)).2
              = (run pal { p with state := State.Esc } rest).2 := by rw [hrun2]; rfl
          simp only [pushAux, hps, hhe, run, hstep]
          constructor
          · rw [hrec.1, hrun21]
          · refine canon_append_congr rfl ?_
            rw [hrec.2, hrun22]
        · have hstep : stepChar pal p c
              = ({ p with state := State.Text }, [.text [escCh], .text [c]]) := by
            simp only [stepChar, hs]
            rw [if_neg hb, if_neg hc]
          have hstep2 : stepChar pal { p with state := State.Text } c
              = ({ p with state := State.Text }, [.text [c]]) := by
            rw [stepChar]
            show (if c = escCh then _ else _) = _
            rw [if_neg hc]
          have hrun2 : run pal { p with state := State.Text } (c :: rest)
              = ((run pal { p with state := State.Text } rest).1,
                  [.text [c]] ++ (run pal { p with state := State.Text } rest).2) := by
            simp only [run, hstep2]
          have hrun21 : (run pal { p with state := State.Text } (c :: rest)).1
              = (run pal { p with state := State.Text } rest).1 := by rw [hrun2]
          have hrun22 : (run pal { p with state := State.Text } (c :: rest)).2
              = [Event.text [c]] ++ (run pal { p with state := State.Text } rest).2 := by
            rw [hrun2]
          simp only [pushAux, hps, hhe, run, hstep]
          constructor
          · rw [hrec.1, hrun21]
          · show canon ([Event.text [escCh]] ++ (pushAux pal n _ _).2) = _
            rw [show ([Event.text [escCh], Event.text [c]] : List Event)
                  ++ (run pal { p with state := State.Text } rest).2
                = [Event.text [escCh]]
                  ++ ([Event.text [c]] ++ (run pal { p with state := State.Text } rest).2)
                from by simp]
            refine canon_append_congr rfl ?_
            rw [hrec.2, hrun22]
    | Csi =>
      rw [if_neg (by rw [hs]; exact fun h => State.noConfusion h)] at hfuel
      have hps : pushStep pal p (c :: rest) = handleCsi pal p (c :: rest) := by
        rw [pushStep, hs]
      cases hidx : firstIdx (fun d => !isParamByte d) (c :: rest) with
      | none =>
        have hallc : (c :: rest).all isParamByte = true := by
          rw [List.all_eq_true]
          intro d hd
          have := firstIdx_none hidx d hd
          simpa using this
        have hfree : ∀ d ∈ c :: rest, (d == escCh) = false := by
          intro d hd
          exact ne_esc_beq (paramByte_ne_esc (List.all_eq_true.mp hallc d hd))
        by_cases hov : (c :: rest).length > csiArgLenLimit - p.csiArgs.length
        · have hhc : handleCsi pal p (c :: rest)
              = ((dumpUnknownCsi p).1, (dumpUnknownCsi p).2, c :: rest) := by
            rw [handleCsi]
            simp only [hidx]
            rw [if_pos hov]
          have hrec := ih (dumpUnknownCsi p).1 (c :: rest) (goodP_dumpUnknownCsi p)
            (by
              have h0 : (if (dumpUnknownCsi p).1.state = State.Text then 0 else 1) = 0 := rfl
              rw [h0]
              simp only [List.length_cons] at hfuel ⊢
              omega)
          have hrun2 : run pal (dumpUnknownCsi p).1 (c :: rest)
              = ((dumpUnknownCsi p).1, (c :: rest).map fun d => Event.text [d]) :=
            run_textFree rfl hfree
          have hov2 := @run_csiOverflow pal (c :: rest) _ hs hcmd hallc hlen
            (by simp only [List.length_cons] at hov ⊢; omega)
          simp only [pushAux, hps, hhc]
          constructor
          · rw [hrec.1, hrun2, hov2.1]
            rfl
          · show canon ((dumpUnknownCsi p).2 ++ (pushAux pal n _ _).2) = _
            have hl : canon ((dumpUnknownCsi p).2 ++ (pushAux pal n (dumpUnknownCsi p).1
                  (c :: rest)).2)
                = canon ((dumpUnknownCsi p).2 ++ ((c :: rest).map fun d => Event.text [d])) := by
              refine canon_append_congr rfl ?_
              rw [hrec.2, hrun2]
            rw [hl, hov2.2]
            rw [dumpUnknownCsi]
            simp only [hcmd, List.append_nil]
            rw [show (([Event.text (escCh :: '[' :: p.csiArgs)] : List Event)
                  ++ (c :: rest).map fun d => Event.text [d])
                = Event.text (escCh :: '[' :: p.csiArgs)
                    :: (c :: rest).map fun d => Event.text [d] from rfl,
              canon_textMap, canon_text_cons]
            rw [show (escCh :: '[' :: p.csiArgs) ++ c :: rest
                = escCh :: '[' :: (p.csiArgs ++ c :: rest) from by simp]
            rfl
        · have hhc : handleCsi pal p (c :: rest)
              = ({ p with csiArgs := p.csiArgs ++ (c :: rest) }, [], []) := by
            rw [handleCsi]
            simp only [hidx]
            rw [if_neg hov]
          have hrun : run pal p (c :: rest)
              = ({ p with csiArgs := p.csiArgs ++ (c :: rest) }, []) :=
            run_csiFits hs hallc
              (by simp only [csiArgLenLimit] at hov hlen ⊢; omega)
          simp only [pushAux, hps, hhc, pushAux_nil, hrun]
          exact ⟨trivial, rfl⟩
      | some i =>
        obtain ⟨hlt, htake, hget⟩ := firstIdx_some hidx
        have hdp : isParamByte ((c :: rest).getD i ' ') = false := by
          simpa using hget
        have htakeP : ((c :: rest).take i).all isParamByte = true := by
          rw [List.all_eq_true]
          intro d hd
          have := htake d hd
          simpa using this
        have htlen : ((c :: rest).take i).length = i :=
          by rw [List.length_take]; omega
        have hdec : (c :: rest).take i ++ (c :: rest).getD i ' ' :: (c :: rest).drop (i + 1)
            = c :: rest := take_getD_drop hlt
        by_cases hov : i > csiArgLenLimit - p.csiArgs.length
        · have hhc : handleCsi pal p (c :: rest)
              = ((dumpUnknownCsi p).1, (dumpUnknownCsi p).2, c :: rest) := by
            rw [handleCsi]
            simp only [hidx]
            rw [if_pos (by rw [htlen]; exact hov)]
          have hrec := ih (dumpUnknownCsi p).1 (c :: rest) (goodP_dumpUnknownCsi p)
            (by
              have h0 : (if (dumpUnknownCsi p).1.state = State.Text then 0 else 1) = 0 := rfl
              rw [h0]
              simp only [List.length_cons] at hfuel ⊢
              omega)
          -- the single-character run processed from the dumped Text state
          have hfreePre : ∀ d ∈ (c :: rest).take i, (d == escCh) = false := by
            intro d hd
            exact ne_esc_beq (paramByte_ne_esc (List.all_eq_true.mp htakeP d hd))
          have hpre2 : run pal (dumpUnknownCsi p).1 ((c :: rest).take i)
              = ((dumpUnknownCsi p).1, ((c :: rest).take i).map fun d => Event.text [d]) :=
            run_textFree rfl hfreePre
          have hpre2L : run pal { state := State.Text, csiArgs := [], csiCommand := [], style := p.style } ((c :: rest).take i)
              = ({ state := State.Text, csiArgs := [], csiCommand := [], style := p.style },
                  ((c :: rest).take i).map fun d => Event.text [d]) :=
            run_textFree rfl hfreePre
          have hov2 := @run_csiOverflow pal ((c :: rest).take i) _ hs hcmd htakeP
            hlen (by rw [htlen]; simp only [csiArgLenLimit] at hov hlen ⊢; omega)
          have hLdec : run pal (dumpUnknownCsi p).1 (c :: rest)
              = run pal (dumpUnknownCsi p).1 ((c :: rest).take i
                  ++ (c :: rest).getD i ' ' :: (c :: rest).drop (i + 1)) := by rw [hdec]
          have hRdec : run pal p (c :: rest)
              = run pal p ((c :: rest).take i
                  ++ (c :: rest).getD i ' ' :: (c :: rest).drop (i + 1)) := by rw [hdec]
          simp only [pushAux, hps, hhc]
          constructor
          · rw [hrec.1, hLdec, hRdec]
            simp only [run_append, hpre2, hpre2L, hov2.1]
            rfl
          · show canon ((dumpUnknownCsi p).2 ++ (pushAux pal n _ _).2) = _
            have hl : canon ((dumpUnknownCsi p).2 ++ (pushAux pal n (dumpUnknownCsi p).1
                  (c :: rest)).2)
                = canon ((dumpUnknownCsi p).2
                    ++ (run pal (dumpUnknownCsi p).1 (c :: rest)).2) := by
              refine canon_append_congr rfl ?_
              exact hrec.2
            rw [hl, hLdec, hRdec]
            simp only [run_append, hpre2, hpre2L, hov2.1]
            rw [← List.append_assoc]
            refine canon_append_congr ?_ rfl
            -- left parts: dump-first-then-text  vs  overflow-inside-run
            rw [hov2.2]
            rw [show (dumpUnknownCsi p).2 = [Event.text (escCh :: '[' :: p.csiArgs)] from by
              rw [dumpUnknownCsi]
              simp [hcmd]]
            rw [show (([Event.text (escCh :: '[' :: p.csiArgs)] : List Event)
                  ++ ((c :: rest).take i).map fun d => Event.text [d])
                = Event.text (escCh :: '[' :: p.csiArgs)
                    :: ((c :: rest).take i).map fun d => Event.text [d] from rfl,
              canon_textMap, canon_text_cons]
            rw [show (escCh :: '[' :: p.csiArgs) ++ (c :: rest).take i
                = escCh :: '[' :: (p.csiArgs ++ (c :: rest).take i) from by simp]
            rfl
        · have hhc : handleCsi pal p (c :: rest) = ((if (c :: rest).getD i ' ' = 'm' then handleSgr pal { p with csiArgs := p.csiArgs ++ (c :: rest).take i, csiCommand := [(c :: rest).getD i ' '] } else dumpUnknownCsi { p with csiArgs := p.csiArgs ++ (c :: rest).take i, csiCommand := [(c :: rest).getD i ' '] }).1, (if (c :: rest).getD i ' ' = 'm' then handleSgr pal { p with csiArgs := p.csiArgs ++ (c :: rest).take i, csiCommand := [(c :: rest).getD i ' '] } else dumpUnknownCsi { p with csiArgs := p.csiArgs ++ (c :: rest).take i, csiCommand := [(c :: rest).getD i ' '] }).2, (c :: rest).drop (i + 1)) := by
            rw [handleCsi]
            simp only [hidx]
            rw [if_neg (by rw [htlen]; exact hov)]
          set q : PState := { p with csiArgs := p.csiArgs ++ (c :: rest).take i, csiCommand := [(c :: rest).getD i ' '] } with hq
          set r : PState × List Event := if (c :: rest).getD i ' ' = 'm' then handleSgr pal q else dumpUnknownCsi q with hr
          have hrState : r.1.state = State.Text := by
            rw [hr]
            split
            · exact handleSgr_state pal q
            · rfl
          have hrGood : goodP r.1 := by
            rw [hr]
            split
            · exact goodP_handleSgr pal q
            · exact goodP_dumpUnknownCsi q
          have hrec := ih r.1 ((c :: rest).drop (i + 1)) hrGood
            (by
              refine Nat.lt_of_le_of_lt (Nat.add_le_add_left (ifStateLe _) _) ?_
              simp only [List.length_drop, List.length_cons] at hfuel ⊢
              omega)
          have hfits : run pal p ((c :: rest).take i)
              = ({ p with csiArgs := p.csiArgs ++ (c :: rest).take i }, []) :=
            run_csiFits hs htakeP
              (by rw [htlen]; simp only [csiArgLenLimit] at hov hlen ⊢; omega)
          have hstepd : stepChar pal { p with csiArgs := p.csiArgs ++ (c :: rest).take i }
                ((c :: rest).getD i ' ')
              = r := by
            simp only [stepChar, hs]
            rw [hdp]
            simp only [Bool.false_eq_true, if_false]
            rfl
          constructor
          · show (pushAux pal n _ _).1 = _
            simp only [pushAux, hps, hhc]
            rw [hrec.1]
            conv_rhs => rw [← hdec]
            rw [run_append, hfits]
            simp only [run, hstepd]
          · simp only [pushAux, hps, hhc]
            conv_rhs => rw [← hdec]
            rw [run_append, hfits]
            simp only [run, hstepd]
            show canon (r.2 ++ (pushAux pal n _ _).2) = _
            rw [List.nil_append]
            refine canon_append_congr rfl ?_
            exact hrec.2

/-- `push` agrees with the single-character semantics (the fuel
`2 * chunk.length + 2` always exceeds the loop measure). -/
theorem push_run (pal : Palette) (p : PState) (chunk : List Char) (hg : goodP p) :
    (push pal p chunk).1 = (run pal p chunk).1 ∧
      canon (push pal p chunk).2 = canon (run pal p chunk).2 := by
  refine pushAux_run pal (2 * chunk.length + 2) p chunk hg ?_
  have := ifStateLe p
  omega

theorem goodP_push (pal : Palette) (p : PState) (chunk : List Char) (hg : goodP p) :
    goodP (push pal p chunk).1 := by
  rw [(push_run pal p chunk hg).1]
  exact goodP_run hg

/-- Feeding chunks one at a time agrees with one `run` over their
concatenation. -/
theorem feedPush_run (pal : Palette) :
    ∀ (chunks : List (List Char)) (p : PState), goodP p →
      (feedPush pal p chunks).1 = (run pal p chunks.flatten).1 ∧
        canon (feedPush pal p chunks).2 = canon (run pal p chunks.flatten).2 := by
  intro chunks
  induction chunks with
  | nil => intro p hg; exact ⟨rfl, rfl⟩
  | cons chunk rest ih =>
    intro p hg
    have h1 := push_run pal p chunk hg
    have hrec := ih (push pal p chunk).1 (goodP_push pal p chunk hg)
    rw [h1.1] at hrec
    constructor
    · show (feedPush pal (push pal p chunk).1 rest).1 = _
      rw [h1.1, hrec.1, List.flatten_cons, run_append]
    · show canon ((push pal p chunk).2 ++ (feedPush pal (push pal p chunk).1 rest).2) = _
      rw [h1.1, List.flatten_cons, run_append]
      exact canon_append_congr h1.2 hrec.2

theorem goodP_feedPush (pal : Palette) :
    ∀ (chunks : List (List Char)) (p : PState), goodP p → goodP (feedPush pal p chunks).1 := by
  intro chunks p hg
  rw [(feedPush_run pal chunks p hg).1]
  exact goodP_run hg

/-! ## Rendering respects canonical event streams -/

theorem escaperOf_append (flag : Bool) (a b : List Char) :
    escaperOf flag (a ++ b) = escaperOf flag a ++ escaperOf flag b := by
  cases flag <;> simp [escaperOf, escapeHtml, escapeControlHtml]

theorem escaperOf_nil (flag : Bool) : escaperOf flag [] = [] := by
  cases flag <;> rfl

theorem flatPieces_append (x y : List Piece) :
    flatPieces (x ++ y) = flatPieces x ++ flatPieces y := by
  simp [flatPieces]

theorem renderEvents_append (flag b : Bool) (x y : List Event) :
    renderEvents flag b (x ++ y)
      = ((renderEvents flag (renderEvents flag b x).1 y).1,
          (renderEvents flag b x).2 ++ (renderEvents flag (renderEvents flag b x).1 y).2) := by
  induction x generalizing b with
  | nil => simp [renderEvents]
  | cons e r ih =>
    simp only [List.cons_append, renderEvents, List.append_eq]
    rw [ih]
    simp [List.append_assoc]

/-- Rendering a single coalesced text run produces the same characters and
state as rendering its pieces. -/
theorem render_consText (flag : Bool) (t : List Char) (es : List Event) (b : Bool) :
    (renderEvents flag b (consText t es)).1 = (renderEvents flag b es).1 ∧
      flatPieces (renderEvents flag b (consText t es)).2
        = escaperOf flag t ++ flatPieces (renderEvents flag b es).2 := by
  by_cases ht : t = []
  · subst ht
    rw [consText_nil_left, escaperOf_nil, List.nil_append]
    exact ⟨rfl, rfl⟩
  · cases es with
    | nil =>
      rw [consText_nil_right ht]
      exact ⟨rfl, rfl⟩
    | cons e r =>
      cases e with
      | text u =>
        rw [consText_text ht]
        refine ⟨rfl, ?_⟩
        show escaperOf flag (t ++ u) ++ flatPieces (renderEvents flag b r).2
            = escaperOf flag t ++ (escaperOf flag u ++ flatPieces (renderEvents flag b r).2)
        rw [escaperOf_append, List.append_assoc]
      | style s =>
        rw [consText_style ht]
        exact ⟨rfl, rfl⟩

/-- Rendering is invariant under canonicalization: same final `inSpan` flag,
same output characters. -/
theorem render_canon (flag : Bool) :
    ∀ (es : List Event) (b : Bool),
      (renderEvents flag b (canon es)).1 = (renderEvents flag b es).1 ∧
        flatPieces (renderEvents flag b (canon es)).2
          = flatPieces (renderEvents flag b es).2 := by
  intro es
  induction es with
  | nil => intro b; exact ⟨rfl, rfl⟩
  | cons e r ih =>
    intro b
    cases e with
    | text t =>
      obtain ⟨h1, h2⟩ := render_consText flag t (canon r) b
      obtain ⟨h3, h4⟩ := ih b
      constructor
      · show (renderEvents flag b (consText t (canon r))).1
            = (renderEvents flag b (Event.text t :: r)).1
        rw [h1, h3]
        rfl
      · show flatPieces (renderEvents flag b (consText t (canon r))).2
            = flatPieces (renderEvents flag b (Event.text t :: r)).2
        rw [h2, h4]
        rfl
    | style s =>
      obtain ⟨h3, h4⟩ := ih (!s.isEmpty)
      constructor
      · show (renderEvents flag (!s.isEmpty) (canon r)).1
            = (renderEvents flag (!s.isEmpty) r).1
        exact h3
      · show flatPieces (renderEvents flag b (Event.style s :: canon r)).2
            = flatPieces (renderEvents flag b (Event.style s :: r)).2
        rw [show (renderEvents flag b (Event.style s :: canon r)).2
              = (renderEvent flag b (Event.style s)).2
                  ++ (renderEvents flag (!s.isEmpty) (canon r)).2 from rfl,
          show (renderEvents flag b (Event.style s :: r)).2
              = (renderEvent flag b (Event.style s)).2
                  ++ (renderEvents flag (!s.isEmpty) r).2 from rfl,
          flatPieces_append, flatPieces_append, h4]

theorem render_canon_congr (flag : Bool) {es es' : List Event} (b : Bool)
    (h : canon es = canon es') :
    (renderEvents flag b es).1 = (renderEvents flag b es').1 ∧
      flatPieces (renderEvents flag b es).2 = flatPieces (renderEvents flag b es').2 := by
  obtain ⟨h1, h2⟩ := render_canon flag es b
  obtain ⟨h3, h4⟩ := render_canon flag es' b
  rw [h] at h1 h2
  exact ⟨h1.symm.trans h3, h2.symm.trans h4⟩

/-! ## Claim C1: chunk-boundary invariance -/

/-- C1, as stated, is false at the raw event level: feeding `"a"` then `"b"`
emits `TextRun "a", TextRun "b"`, while feeding `"ab"` emits the single
`TextRun "ab"` — the event sequences differ, though their coalesced form and
the concatenated output agree. -/
theorem c1_counterexample :
    ¬(pipelineEvents defaultPalette [['a'], ['b']]
        = pipelineEvents defaultPalette [['a', 'b']]) := by
  decide

/-- C1 (amended): for every palette, options and way of splitting an input
into chunks, feeding the chunks one by one and finalizing produces the same
final parser state, the same events as the single-chunk run up to coalescing
consecutive text runs (identical text content and identical style-change
events in identical order), and the byte-identical concatenated string
output of the `SGRToStringTransformer`. -/
theorem c1_chunk_invariance (pal : Palette) (escapeControlCodes : Bool)
    (chunks : List (List Char)) :
    (feedPush pal initP chunks).1 = (push pal initP chunks.flatten).1 ∧
      canon (pipelineEvents pal chunks) = canon (pipelineEvents pal [chunks.flatten]) ∧
      pipelineOutput pal escapeControlCodes chunks
        = pipelineOutput pal escapeControlCodes [chunks.flatten] := by
  have hflat : ([chunks.flatten] : List (List Char)).flatten = chunks.flatten := by simp
  have hA := feedPush_run pal chunks initP goodP_initP
  have hB := feedPush_run pal [chunks.flatten] initP goodP_initP
  rw [hflat] at hB
  have hstate : (feedPush pal initP chunks).1 = (feedPush pal initP [chunks.flatten]).1 := by
    rw [hA.1, hB.1]
  have hev2 : canon (feedPush pal initP chunks).2
      = canon (feedPush pal initP [chunks.flatten]).2 := by
    rw [hA.2, hB.2]
  have hev : canon (pipelineEvents pal chunks)
      = canon (pipelineEvents pal [chunks.flatten]) := by
    rw [pipelineEvents, pipelineEvents]
    refine canon_append_congr hev2 ?_
    rw [hstate]
  refine ⟨?_, hev, ?_⟩
  · rw [hstate]
    rfl
  · have hrc := render_canon_congr escapeControlCodes false hev
    rw [pipelineOutput, pipelineOutput, pipelinePieces, pipelinePieces,
      flatPieces_append, flatPieces_append, hrc.2, hrc.1]

/-! ## Claim C7: the 64-byte parameter-buffer limit -/

/-- The repository's own oversized-parameter-list test input: a 70-digit
parameter list. -/
def longCsiInput : List Char :=
  ("hello, \x1B[0123456789012345678901234567890123456789012345678901234567890123456789"
    ++ "mworld").data

/-- C7: if appending the pending parameter bytes would make the CSI buffer
exceed the 64-byte limit, `handleCsi` emits the accumulated sequence
verbatim as text (literal `ESC [` plus the buffered parameter bytes, no
final byte), returns to the `Text` state, and hands the whole chunk back to
be re-processed as ordinary text; consequently, on the 70-digit
parameter-list input the overall output equals the input verbatim. -/
theorem c7_csi_length_limit :
    (∀ (pal : Palette) (p : PState) (chunk : List Char),
      p.csiCommand = [] →
      (match firstIdx (fun c => !isParamByte c) chunk with
        | none => chunk
        | some i => chunk.take i).length > csiArgLenLimit - p.csiArgs.length →
      handleCsi pal p chunk
        = ({ p with state := .Text, csiArgs := [], csiCommand := [] },
            [.text (escCh :: '[' :: p.csiArgs)], chunk)) ∧
    pipelineOutput defaultPalette false [longCsiInput] = longCsiInput := by
  constructor
  · intro pal p chunk hcmd hov
    rw [handleCsi]
    dsimp only
    rw [if_pos hov]
    rw [dumpUnknownCsi]
    simp [hcmd]
  · decide

/-! ## Claim C2: finalization of truncated streams -/

/-- The `flush` method of `SGRToStringTransformer`: render the `finalize`
events through the escaper, then close a still-open span. -/
def flushTransformer (escapeControlCodes : Bool) (p : PState) (inSpan : Bool) :
    List Piece :=
  (renderEvents escapeControlCodes inSpan (finalizeP p).2).2
    ++ (if (renderEvents escapeControlCodes inSpan (finalizeP p).2).1
        then [.spanClose] else [])

theorem finalize_render_bool (flag : Bool) (p : PState) (b : Bool) :
    (renderEvents flag b (finalizeP p).2).1 = b := by
  rw [finalizeP]
  cases p.state with
  | Text => rfl
  | Esc => rfl
  | Csi => rfl

/-- C2: after any sequence of pushes, `finalize` emits a lone literal ESC
from the `Escape` state, emits `ESC [` plus the accumulated parameter bytes
(no final byte) from the `Csi` state, and emits nothing from `Text`; and the
string adapter's `flush` additionally appends one closing `</span>` exactly
when a span is still open. -/
theorem c2_finalize_flush (pal : Palette) (escapeControlCodes : Bool)
    (chunks : List (List Char)) :
    ((finalizeP (feedPush pal initP chunks).1).2
      = match (feedPush pal initP chunks).1.state with
        | .Text => []
        | .Esc => [Event.text [escCh]]
        | .Csi => [Event.text (escCh :: '[' :: (feedPush pal initP chunks).1.csiArgs)]) ∧
    (∀ inSpan : Bool,
      flushTransformer escapeControlCodes (feedPush pal initP chunks).1 inSpan
        = (renderEvents escapeControlCodes inSpan
              (finalizeP (feedPush pal initP chunks).1).2).2
            ++ (if inSpan then [Piece.spanClose] else [])) := by
  have hg := goodP_feedPush pal chunks initP goodP_initP
  constructor
  · rw [finalizeP]
    cases hs : (feedPush pal initP chunks).1.state with
    | Text => rfl
    | Esc => rfl
    | Csi =>
      rw [dumpUnknownCsi]
      simp [hg.1]
  · intro inSpan
    rw [flushTransformer, finalize_render_bool]

/-- C7 witness: the general limit statement at a concrete overfull state. -/
theorem c7_witness :
    handleCsi defaultPalette
        { state := .Csi, csiArgs := List.replicate 60 '1', csiCommand := [], style := {} }
        (List.replicate 10 '1')
      = ({ state := .Text, csiArgs := [], csiCommand := [], style := {} },
          [.text (escCh :: '[' :: List.replicate 60 '1')], List.replicate 10 '1') := by
  have h := c7_csi_length_limit.1 defaultPalette
    { state := .Csi, csiArgs := List.replicate 60 '1', csiCommand := [], style := {} }
    (List.replicate 10 '1') rfl (by decide)
  exact h

/-! ## Claims C3 and C4: parameter-list parsing and reset/order semantics -/

/-- C3: the empty CSI buffer and empty fields split from it are read as
parameter value 0, `ESC[m`, `ESC[0m` and `ESC[;m` all produce the empty
style from every prior style, and parameter 0 resets all six style fields to
their defaults. -/
theorem c3_reset_equivalence (pal : Palette) (st : Style) :
    paramsOfArgs [] = [0] ∧
    paramsOfArgs ['0'] = [0] ∧
    paramsOfArgs [';'] = [0, 0] ∧
    paramsOfArgs ['1', ';', ';', '2'] = [1, 0, 2] ∧
    parseSgrParameters pal st (paramsOfArgs []) = {} ∧
    parseSgrParameters pal st (paramsOfArgs ['0']) = {} ∧
    parseSgrParameters pal st (paramsOfArgs [';']) = {} ∧
    parseSgrParameters pal st [0] = {} :=
  ⟨by decide, by decide, by decide, by decide, rfl, rfl, rfl, rfl⟩

/-- C4: parameters apply left to right onto a copy of the current style, so
`1;0` yields the empty style, `0;1` yields bolder-only, and `1` alone just
adds bolder to the prior style. -/
theorem c4_order_sensitivity (pal : Palette) (st : Style) :
    parseSgrParameters pal st [1, 0] = {} ∧
    parseSgrParameters pal st [0, 1] = { fontWeight := "bolder" } ∧
    parseSgrParameters pal st [1] = { st with fontWeight := "bolder" } :=
  ⟨rfl, rfl, rfl⟩

/-! ## Claim C5: 8-bit extended colors -/

/-- Palette color by ANSI index (0 = black … 7 = white). -/
def Colors.byIndex (c : Colors) : Nat → String
  | 0 => c.black
  | 1 => c.red
  | 2 => c.green
  | 3 => c.yellow
  | 4 => c.blue
  | 5 => c.magenta
  | 6 => c.cyan
  | 7 => c.white
  | _ => ""

/-- Modelled from the spec: the 8-bit color map as the specification words
it — palette lookups for 0–15, the 6×6×6 cube via the division/modulus
formulas `r=((n-16)/36)%6`, `g=((n-16)/6)%6`, `b=(n-16)%6` scaled by 51 for
16–231, and the grayscale ramp `(n-232)*11` for 232–255.  This is the
refinement target that the source's `parseCustomColor` is compared
against. -/
def spec8BitColor (pal : Palette) (n : Nat) : String :=
  if n ≤ 7 then pal.standard.byIndex n
  else if n ≤ 15 then pal.bright.byIndex (n - 8)
  else if n ≤ 231 then
    rgbStr ((n - 16) / 36 % 6 * 51) ((n - 16) / 6 % 6 * 51) ((n - 16) % 6 * 51)
  else rgbStr ((n - 232) * 11) ((n - 232) * 11) ((n - 232) * 11)

theorem parseCustomColor_five (pal : Palette) (p0 : Nat) (n : Nat) (h : n ≤ 255) :
    parseCustomColor pal [p0, 5, n] 0 = some (2, spec8BitColor pal n) := by
  show (if n = 0 then some (2, pal.standard.black)
      else if n = 1 then some (2, pal.standard.red)
      else if n = 2 then some (2, pal.standard.green)
      else if n = 3 then some (2, pal.standard.yellow)
      else if n = 4 then some (2, pal.standard.blue)
      else if n = 5 then some (2, pal.standard.magenta)
      else if n = 6 then some (2, pal.standard.cyan)
      else if n = 7 then some (2, pal.standard.white)
      else if n = 8 then some (2, pal.bright.black)
      else if n = 9 then some (2, pal.bright.red)
      else if n = 10 then some (2, pal.bright.green)
      else if n = 11 then some (2, pal.bright.yellow)
      else if n = 12 then some (2, pal.bright.blue)
      else if n = 13 then some (2, pal.bright.magenta)
      else if n = 14 then some (2, pal.bright.cyan)
      else if n = 15 then some (2, pal.bright.white)
      else if 16 ≤ n ∧ n ≤ 231 then
        some (2, rgbStr ((n - 16) / 6 / 6 % 6 * 51) ((n - 16) / 6 % 6 * 51)
          ((n - 16) % 6 * 51))
      else if 232 ≤ n ∧ n ≤ 255 then
        some (2, rgbStr ((n - 232) * 11) ((n - 232) * 11) ((n - 232) * 11))
      else none)
    = some (2, spec8BitColor pal n)
  by_cases h15 : n ≤ 15
  · interval_cases n <;> rfl
  · rw [if_neg (show ¬n = 0 by omega), if_neg (show ¬n = 1 by omega),
      if_neg (show ¬n = 2 by omega), if_neg (show ¬n = 3 by omega),
      if_neg (show ¬n = 4 by omega), if_neg (show ¬n = 5 by omega),
      if_neg (show ¬n = 6 by omega), if_neg (show ¬n = 7 by omega),
      if_neg (show ¬n = 8 by omega), if_neg (show ¬n = 9 by omega),
      if_neg (show ¬n = 10 by omega), if_neg (show ¬n = 11 by omega),
      if_neg (show ¬n = 12 by omega), if_neg (show ¬n = 13 by omega),
      if_neg (show ¬n = 14 by omega), if_neg (show ¬n = 15 by omega)]
    by_cases h231 : n ≤ 231
    · rw [if_pos (show 16 ≤ n ∧ n ≤ 231 from ⟨by omega, h231⟩)]
      rw [spec8BitColor, if_neg (show ¬n ≤ 7 by omega), if_neg (show ¬n ≤ 15 by omega),
        if_pos h231, Nat.div_div_eq_div_mul]
    · rw [if_neg (show ¬(16 ≤ n ∧ n ≤ 231) from fun hc => h231 hc.2),
        if_pos (show 232 ≤ n ∧ n ≤ 255 from ⟨by omega, h⟩)]
      rw [spec8BitColor, if_neg (show ¬n ≤ 7 by omega), if_neg (show ¬n ≤ 15 by omega),
        if_neg h231]

/-- One unfolding step of the `parseSgrParameters` loop. -/
theorem applyFrom_succ (pal : Palette) (parameters : List Nat) (fuel i : Nat) (st : Style) :
    applyFrom pal parameters (fuel + 1) i st
      = match parameters.get? i with
        | none => st
        | some p =>
          match sgrCase pal p with
          | .set u => applyFrom pal parameters fuel (i + 1) (u st)
          | .customFg =>
            match parseCustomColor pal parameters i with
            | none => st
            | some (i', c) => applyFrom pal parameters fuel (i' + 1) { st with color := c }
          | .customBg =>
            match parseCustomColor pal parameters i with
            | none => st
            | some (i', c) =>
              applyFrom pal parameters fuel (i' + 1) { st with backgroundColor := c }
          | .ignore => applyFrom pal parameters fuel (i + 1) st := rfl

/-- C5: for every palette and every 8-bit parameter `n ≤ 255`, the
source's successive-division computation agrees with the spec's formulas
(`spec8BitColor`): palette lookups for 0–15, the 6×6×6 cube with
`r=((n-16)/36)%6`, `g=((n-16)/6)%6`, `b=(n-16)%6` scaled by 51, and the
grayscale ramp `(n-232)*11`; `38;5;n` sets the foreground and `48;5;n` the
background; in particular 16 ↦ rgb(0,0,0), 231 ↦ rgb(255,255,255),
232 ↦ rgb(0,0,0) and 255 ↦ rgb(253,253,253). -/
theorem c5_eightBitColor (pal : Palette) (st : Style) (n : Nat) (h : n ≤ 255) :
    parseCustomColor pal [38, 5, n] 0 = some (2, spec8BitColor pal n) ∧
    parseCustomColor pal [48, 5, n] 0 = some (2, spec8BitColor pal n) ∧
    parseSgrParameters pal st [38, 5, n] = { st with color := spec8BitColor pal n } ∧
    parseSgrParameters pal st [48, 5, n]
      = { st with backgroundColor := spec8BitColor pal n } ∧
    parseCustomColor pal [38, 5, 16] 0 = some (2, "rgb(0,0,0)") ∧
    parseCustomColor pal [38, 5, 231] 0 = some (2, "rgb(255,255,255)") ∧
    parseCustomColor pal [38, 5, 232] 0 = some (2, "rgb(0,0,0)") ∧
    parseCustomColor pal [38, 5, 255] 0 = some (2, "rgb(253,253,253)") := by
  refine ⟨parseCustomColor_five pal 38 n h, parseCustomColor_five pal 48 n h, ?_, ?_,
    rfl, rfl, rfl, rfl⟩
  · rw [parseSgrParameters]
    show applyFrom pal [38, 5, n] (3 + 1) 0 st = _
    rw [applyFrom_succ]
    show (match parseCustomColor pal [38, 5, n] 0 with
          | none => st
          | some (i', c) => applyFrom pal [38, 5, n] 3 (i' + 1) { st with color := c }) = _
    rw [parseCustomColor_five pal 38 n h]
    rfl
  · rw [parseSgrParameters]
    show applyFrom pal [48, 5, n] (3 + 1) 0 st = _
    rw [applyFrom_succ]
    show (match parseCustomColor pal [48, 5, n] 0 with
          | none => st
          | some (i', c) =>
            applyFrom pal [48, 5, n] 3 (i' + 1) { st with backgroundColor := c }) = _
    rw [parseCustomColor_five pal 48 n h]
    rfl

/-- C5 witness: 8-bit foreground 9 on the default palette is bright red. -/
theorem c5_witness :
    parseSgrParameters defaultPalette {} [38, 5, 9] = { color := "#e74856" } := by
  have h := (c5_eightBitColor defaultPalette {} 9 (by decide)).2.2.1
  exact h

/-! ## Claim C6: malformed extended-color sub-sequences abort the list -/

/-- C6: a 38/48 parameter followed by a missing colorspace selector, a
selector other than 2 or 5, a missing sub-parameter, or a numeric
sub-parameter above 255 makes `parseCustomColor` fail; a failing 38/48
makes the parameter loop return the style accumulated so far (no color set,
all remaining parameters abandoned, parameters before the faulty one
retained); the input `"\x1B[38mhello"` renders as plain `"hello"`.  In the
source each failure path logs a `console.error` diagnostic instead of
throwing; totality of the embedding reflects the absence of exceptions. -/
theorem c6_customColor_abort (pal : Palette) (params : List Nat) (i : Nat)
    (st : Style) (fuel : Nat) :
    (params.get? (i + 1) = none → parseCustomColor pal params i = none) ∧
    (∀ cs, params.get? (i + 1) = some cs → ¬cs = 2 → ¬cs = 5 →
      parseCustomColor pal params i = none) ∧
    (params.get? (i + 1) = some 5 → params.get? (i + 2) = none →
      parseCustomColor pal params i = none) ∧
    (∀ v, params.get? (i + 1) = some 5 → params.get? (i + 2) = some v → 255 < v →
      parseCustomColor pal params i = none) ∧
    (params.get? (i + 1) = some 2 →
      (params.get? (i + 2) = none ∨ params.get? (i + 3) = none ∨
        params.get? (i + 4) = none) →
      parseCustomColor pal params i = none) ∧
    (∀ r g b, params.get? (i + 1) = some 2 → params.get? (i + 2) = some r →
      params.get? (i + 3) = some g → params.get? (i + 4) = some b →
      (255 < r ∨ 255 < g ∨ 255 < b) → parseCustomColor pal params i = none) ∧
    ((params.get? i = some 38 ∨ params.get? i = some 48) →
      parseCustomColor pal params i = none →
      applyFrom pal params (fuel + 1) i st = st) ∧
    pipelineOutput defaultPalette false ["\x1B[38mhello".data] = "hello".data := by
  refine ⟨?_, ?_, ?_, ?_, ?_, ?_, ?_, by decide⟩
  · intro h
    rw [parseCustomColor, h]
  · intro cs h h2 h5
    rw [parseCustomColor, h]
    dsimp only
    rw [if_neg h2, if_neg h5]
  · intro h5 hsub
    rw [parseCustomColor, h5]
    dsimp only
    rw [if_neg (by omega : ¬(5 : Nat) = 2), if_pos rfl, hsub]
  · intro v h5 hv hbig
    rw [parseCustomColor, h5]
    dsimp only
    rw [if_neg (by omega : ¬(5 : Nat) = 2), if_pos rfl, hv]
    dsimp only
    rw [if_neg (by omega : ¬v = 0), if_neg (by omega : ¬v = 1), if_neg (by omega : ¬v = 2),
      if_neg (by omega : ¬v = 3), if_neg (by omega : ¬v = 4), if_neg (by omega : ¬v = 5),
      if_neg (by omega : ¬v = 6), if_neg (by omega : ¬v = 7), if_neg (by omega : ¬v = 8),
      if_neg (by omega : ¬v = 9), if_neg (by omega : ¬v = 10), if_neg (by omega : ¬v = 11),
      if_neg (by omega : ¬v = 12), if_neg (by omega : ¬v = 13), if_neg (by omega : ¬v = 14),
      if_neg (by omega : ¬v = 15), if_neg (by omega : ¬(16 ≤ v ∧ v ≤ 231)),
      if_neg (by omega : ¬(232 ≤ v ∧ v ≤ 255))]
  · intro h2 hmiss
    rw [parseCustomColor, h2]
    dsimp only
    rw [if_pos rfl]
    rcases hmiss with hm | hm | hm
    · rw [hm]
    · rw [hm]
      cases params.get? (i + 2) <;> rfl
    · rw [hm]
      cases params.get? (i + 2) <;> cases params.get? (i + 3) <;> rfl
  · intro r g b h2 hr hg hb hbig
    rw [parseCustomColor, h2]
    dsimp only
    rw [if_pos rfl, hr, hg, hb]
    dsimp only
    by_cases hru : isU8Number r = true
    · rw [if_pos hru]
      by_cases hgu : isU8Number g = true
      · rw [if_pos hgu]
        rw [if_neg (show ¬isU8Number b = true by
          simp only [isU8Number] at hru hgu ⊢
          simp only [decide_eq_true_eq] at hru hgu ⊢
          omega)]
      · rw [if_neg hgu]
    · rw [if_neg hru]
  · intro h38 hfail
    rcases h38 with h38 | h48
    · rw [applyFrom_succ, h38]
      show (match parseCustomColor pal params i with
            | none => st
            | some (i2, c) => applyFrom pal params fuel (i2 + 1) { st with color := c }) = st
      rw [hfail]
    · rw [applyFrom_succ, h48]
      show (match parseCustomColor pal params i with
            | none => st
            | some (i2, c) =>
              applyFrom pal params fuel (i2 + 1) { st with backgroundColor := c }) = st
      rw [hfail]

/-- C6 witness: the failure conditions and the abort at concrete inputs. -/
theorem c6_witness :
    parseCustomColor defaultPalette [38] 0 = none ∧
    parseCustomColor defaultPalette [38, 3, 1] 0 = none ∧
    parseCustomColor defaultPalette [38, 5] 0 = none ∧
    parseCustomColor defaultPalette [38, 5, 300] 0 = none ∧
    parseCustomColor defaultPalette [38, 2, 1, 2] 0 = none ∧
    parseCustomColor defaultPalette [38, 2, 1, 2, 300] 0 = none ∧
    applyFrom defaultPalette [1, 38] 2 1 { fontWeight := "bolder" }
      = { fontWeight := "bolder" } := by
  have h := c6_customColor_abort defaultPalette [38] 0 {} 0
  have h2 := c6_customColor_abort defaultPalette [38, 3, 1] 0 {} 0
  have h3 := c6_customColor_abort defaultPalette [38, 5] 0 {} 0
  have h4 := c6_customColor_abort defaultPalette [38, 5, 300] 0 {} 0
  have h5 := c6_customColor_abort defaultPalette [38, 2, 1, 2] 0 {} 0
  have h6 := c6_customColor_abort defaultPalette [38, 2, 1, 2, 300] 0 {} 0
  have h7 := c6_customColor_abort defaultPalette [1, 38] 1 { fontWeight := "bolder" } 1
  refine ⟨h.1 (by decide), h2.2.1 3 (by decide) (by decide) (by decide),
    h3.2.2.1 (by decide) (by decide), h4.2.2.2.1 300 (by decide) (by decide) (by decide),
    h5.2.2.2.2.1 (by decide) (Or.inr (Or.inr (by decide))),
    h6.2.2.2.2.2.1 1 2 300 (by decide) (by decide) (by decide) (by decide)
      (Or.inr (Or.inr (by decide))),
    h7.2.2.2.2.2.2.1 (Or.inl (by decide)) (by decide)⟩

/-! ## Claim C9: style events are emitted exactly on real style changes -/

theorem Style.eqOfFields {a b : Style}
    (h1 : a.fontWeight = b.fontWeight) (h2 : a.fontStyle = b.fontStyle)
    (h3 : a.textDecorationUnderline = b.textDecorationUnderline)
    (h4 : a.textDecorationLineThrough = b.textDecorationLineThrough)
    (h5 : a.color = b.color) (h6 : a.backgroundColor = b.backgroundColor) :
    a = b := by
  cases a
  cases b
  simp_all

theorem Style.equals_iff (a b : Style) : Style.equals a b = true ↔ a = b := by
  constructor
  · intro h
    simp only [Style.equals, Bool.and_eq_true, beq_iff_eq] at h
    obtain ⟨⟨⟨⟨⟨h1, h2⟩, h3⟩, h4⟩, h5⟩, h6⟩ := h
    exact Style.eqOfFields h1 h2 h3 h4 h5 h6
  · rintro rfl
    simp [Style.equals]

/-- A style-updating function is, on the field observed by `f`, either a
constant write or a pass-through. -/
def cop {α : Type} (f : Style → α) (F : Style → Style) : Prop :=
  (∀ a b, f (F a) = f (F b)) ∨ ∀ a, f (F a) = f a

theorem cop_congr {α : Type} {f : Style → α} {F G : Style → Style}
    (h : ∀ st, F st = G st) (hG : cop f G) : cop f F := by
  rcases hG with hc | hp
  · exact Or.inl fun a b => by rw [h a, h b]; exact hc a b
  · exact Or.inr fun a => by rw [h a]; exact hp a

theorem cop_comp {α : Type} {f : Style → α} {u F : Style → Style}
    (hu : cop f u) (hF : cop f F) : cop f fun st => F (u st) := by
  rcases hF with fc | fp
  · exact Or.inl fun a b => fc (u a) (u b)
  · rcases hu with uc | up
    · exact Or.inl fun a b => by rw [fp (u a), fp (u b)]; exact uc a b
    · exact Or.inr fun a => by rw [fp (u a), up a]

theorem cop_idem {α : Type} {f : Style → α} {F : Style → Style}
    (h : cop f F) (st : Style) : f (F (F st)) = f (F st) := by
  rcases h with hc | hp
  · exact hc (F st) st
  · exact hp (F st)

/-- Field by field, `F` either writes a constant or passes the field
through.  Every arm of the SGR switch has this shape. -/
def fieldwise (F : Style → Style) : Prop :=
  cop Style.fontWeight F ∧ cop Style.fontStyle F ∧
    cop Style.textDecorationUnderline F ∧ cop Style.textDecorationLineThrough F ∧
    cop Style.color F ∧ cop Style.backgroundColor F

theorem fieldwise_id : fieldwise fun st => st :=
  ⟨Or.inr fun _ => rfl, Or.inr fun _ => rfl, Or.inr fun _ => rfl,
    Or.inr fun _ => rfl, Or.inr fun _ => rfl, Or.inr fun _ => rfl⟩

theorem fieldwise_congr {F G : Style → Style} (h : ∀ st, F st = G st)
    (hG : fieldwise G) : fieldwise F :=
  ⟨cop_congr h hG.1, cop_congr h hG.2.1, cop_congr h hG.2.2.1,
    cop_congr h hG.2.2.2.1, cop_congr h hG.2.2.2.2.1, cop_congr h hG.2.2.2.2.2⟩

theorem fieldwise_comp {u F : Style → Style} (hu : fieldwise u) (hF : fieldwise F) :
    fieldwise fun st => F (u st) :=
  ⟨cop_comp hu.1 hF.1, cop_comp hu.2.1 hF.2.1, cop_comp hu.2.2.1 hF.2.2.1,
    cop_comp hu.2.2.2.1 hF.2.2.2.1, cop_comp hu.2.2.2.2.1 hF.2.2.2.2.1,
    cop_comp hu.2.2.2.2.2 hF.2.2.2.2.2⟩

theorem fieldwise_idem {F : Style → Style} (h : fieldwise F) (st : Style) :
    F (F st) = F st :=
  Style.eqOfFields (cop_idem h.1 st) (cop_idem h.2.1 st) (cop_idem h.2.2.1 st)
    (cop_idem h.2.2.2.1 st) (cop_idem h.2.2.2.2.1 st) (cop_idem h.2.2.2.2.2 st)

theorem fieldwise_setColor (c : String) : fieldwise fun st => { st with color := c } :=
  ⟨Or.inr fun _ => rfl, Or.inr fun _ => rfl, Or.inr fun _ => rfl,
    Or.inr fun _ => rfl, Or.inl fun _ _ => rfl, Or.inr fun _ => rfl⟩

theorem fieldwise_setBg (c : String) :
    fieldwise fun st => { st with backgroundColor := c } :=
  ⟨Or.inr fun _ => rfl, Or.inr fun _ => rfl, Or.inr fun _ => rfl,
    Or.inr fun _ => rfl, Or.inr fun _ => rfl, Or.inl fun _ _ => rfl⟩

theorem sgrCase_fieldwise (pal : Palette) (p : Nat) (u : Style → Style)
    (h : sgrCase pal p = .set u) : fieldwise u := by
  rw [sgrCase.eq_def] at h
  split at h <;>
    first
      | (injection h with hu
         subst hu
         refine ⟨?_, ?_, ?_, ?_, ?_, ?_⟩ <;>
           first
             | exact Or.inl fun a b => rfl
             | exact Or.inr fun a => rfl)
      | injection h

theorem applyFrom_fieldwise (pal : Palette) (ps : List Nat) :
    ∀ fuel i, fieldwise fun st => applyFrom pal ps fuel i st := by
  intro fuel
  induction fuel with
  | zero => intro i; exact fieldwise_id
  | succ fuel ih =>
    intro i
    cases hm : ps.get? i with
    | none =>
      refine fieldwise_congr (fun st => ?_) fieldwise_id
      rw [applyFrom_succ, hm]
    | some p =>
      cases hc : sgrCase pal p with
      | set u =>
        refine fieldwise_congr (fun st => ?_)
          (fieldwise_comp (sgrCase_fieldwise pal p u hc) (ih (i + 1)))
        rw [applyFrom_succ, hm]
        dsimp only
        rw [hc]
      | customFg =>
        cases hpc : parseCustomColor pal ps i with
        | none =>
          refine fieldwise_congr (fun st => ?_) fieldwise_id
          rw [applyFrom_succ, hm]
          dsimp only
          rw [hc]
          dsimp only
          rw [hpc]
        | some pr =>
          obtain ⟨j, c⟩ := pr
          refine fieldwise_congr (fun st => ?_)
            (fieldwise_comp (fieldwise_setColor c) (ih (j + 1)))
          rw [applyFrom_succ, hm]
          dsimp only
          rw [hc]
          dsimp only
          rw [hpc]
      | customBg =>
        cases hpc : parseCustomColor pal ps i with
        | none =>
          refine fieldwise_congr (fun st => ?_) fieldwise_id
          rw [applyFrom_succ, hm]
          dsimp only
          rw [hc]
          dsimp only
          rw [hpc]
        | some pr =>
          obtain ⟨j, c⟩ := pr
          refine fieldwise_congr (fun st => ?_)
            (fieldwise_comp (fieldwise_setBg c) (ih (j + 1)))
          rw [applyFrom_succ, hm]
          dsimp only
          rw [hc]
          dsimp only
          rw [hpc]
      | ignore =>
        refine fieldwise_congr (fun st => ?_) (ih (i + 1))
        rw [applyFrom_succ, hm]
        dsimp only
        rw [hc]

theorem parseSgr_fieldwise (pal : Palette) (ps : List Nat) :
    fieldwise fun st => parseSgrParameters pal st ps :=
  applyFrom_fieldwise pal ps (ps.length + 1) 0

theorem parseSgr_idem (pal : Palette) (st : Style) (ps : List Nat) :
    parseSgrParameters pal (parseSgrParameters pal st ps) ps
      = parseSgrParameters pal st ps :=
  fieldwise_idem (parseSgr_fieldwise pal ps) st

theorem run_sgrSeq (pal : Palette) (sty : Style) (args : List Char)
    (hall : args.all isParamByte = true) (hlen : args.length ≤ csiArgLenLimit) :
    run pal ⟨.Text, [], [], sty⟩ (escCh :: '[' :: (args ++ ['m']))
      = (⟨.Text, [], [],
            if Style.equals sty (parseSgrParameters pal sty (paramsOfArgs args)) then sty
            else parseSgrParameters pal sty (paramsOfArgs args)⟩,
          if Style.equals sty (parseSgrParameters pal sty (paramsOfArgs args)) then []
          else [.style (parseSgrParameters pal sty (paramsOfArgs args))]) := by
  have hsplit : escCh :: '[' :: (args ++ ['m']) = ([escCh, '['] ++ args) ++ ['m'] := by
    simp
  have h12 : run pal ⟨.Text, [], [], sty⟩ [escCh, '['] = (⟨.Csi, [], [], sty⟩, []) := rfl
  have h3 := @run_csiFits pal args ⟨.Csi, [], [], sty⟩ rfl hall
    (by simpa using hlen)
  simp only [List.nil_append] at h3
  have hsgr : handleSgr pal ⟨.Csi, args, ['m'], sty⟩
      = (⟨.Text, [], [],
            if Style.equals sty (parseSgrParameters pal sty (paramsOfArgs args)) then sty
            else parseSgrParameters pal sty (paramsOfArgs args)⟩,
          if Style.equals sty (parseSgrParameters pal sty (paramsOfArgs args)) then []
          else [.style (parseSgrParameters pal sty (paramsOfArgs args))]) := by
    rw [handleSgr]
    dsimp only
    rw [hall]
    rw [if_neg (by decide)]
    by_cases heq : Style.equals sty (parseSgrParameters pal sty (paramsOfArgs args)) = true
    · rw [if_pos heq, if_pos heq, if_pos heq]
    · rw [if_neg heq, if_neg heq, if_neg heq]
  have h4 : run pal ⟨.Csi, args, [], sty⟩ ['m']
      = ((handleSgr pal ⟨.Csi, args, ['m'], sty⟩).1,
          (handleSgr pal ⟨.Csi, args, ['m'], sty⟩).2 ++ []) := by
    show (let r := stepChar pal ⟨.Csi, args, [], sty⟩ 'm'
          let r2 := run pal r.1 []
          (r2.1, r.2 ++ r2.2)) = _
    have hstep : stepChar pal ⟨.Csi, args, [], sty⟩ 'm'
        = handleSgr pal ⟨.Csi, args, ['m'], sty⟩ := by
      rw [stepChar]
      dsimp only
      rw [if_neg (by decide), if_pos rfl]
    rw [hstep]
    rfl
  rw [hsplit, run_append, run_append, h12]
  dsimp only
  rw [h3]
  dsimp only
  rw [h4, hsgr]
  dsimp only
  by_cases heq : Style.equals sty (parseSgrParameters pal sty (paramsOfArgs args)) = true
  · rw [if_pos heq]
    simp
  · rw [if_neg heq]
    simp

/-- C9: pushing one complete SGR sequence `ESC [ args m` emits a
style-change event iff the freshly computed style differs from the previous
one, where the parser compares with field-wise `Style.equals`, which
coincides with propositional equality of the six fields; hence pushing the
same sequence twice in a row emits at most one style-change event. -/
theorem c9_style_event_iff (pal : Palette) (sty : Style) (args : List Char)
    (hall : args.all isParamByte = true) (hlen : args.length ≤ 64) :
    (styleEvents (push pal ⟨.Text, [], [], sty⟩ (escCh :: '[' :: (args ++ ['m']))).2
        = if Style.equals sty (parseSgrParameters pal sty (paramsOfArgs args)) then []
          else [parseSgrParameters pal sty (paramsOfArgs args)]) ∧
    (Style.equals sty (parseSgrParameters pal sty (paramsOfArgs args)) = true
        ↔ sty = parseSgrParameters pal sty (paramsOfArgs args)) ∧
    (styleEvents (push pal ⟨.Text, [], [], sty⟩
        ((escCh :: '[' :: (args ++ ['m'])) ++ escCh :: '[' :: (args ++ ['m']))).2).length
      ≤ 1 := by
  have hg : goodP ⟨.Text, [], [], sty⟩ := ⟨rfl, by simp [csiArgLenLimit], rfl, fun _ => rfl⟩
  have hlen' : args.length ≤ csiArgLenLimit := hlen
  have transfer : ∀ cs : List Char,
      styleEvents (push pal ⟨.Text, [], [], sty⟩ cs).2
        = styleEvents (run pal ⟨.Text, [], [], sty⟩ cs).2 := by
    intro cs
    have h := push_run pal ⟨.Text, [], [], sty⟩ cs hg
    rw [← styleEvents_canon, h.2, styleEvents_canon]
  refine ⟨?_, Style.equals_iff sty _, ?_⟩
  · rw [transfer, run_sgrSeq pal sty args hall hlen']
    dsimp only
    by_cases heq : Style.equals sty (parseSgrParameters pal sty (paramsOfArgs args)) = true
    · rw [if_pos heq, if_pos heq]
      rfl
    · rw [if_neg heq, if_neg heq]
      rfl
  · rw [transfer, run_append, run_sgrSeq pal sty args hall hlen']
    dsimp only
    by_cases heq : Style.equals sty (parseSgrParameters pal sty (paramsOfArgs args)) = true
    · rw [if_pos heq, if_pos heq, run_sgrSeq pal sty args hall hlen']
      dsimp only
      rw [if_pos heq]
      simp [styleEvents]
    · rw [if_neg heq, if_neg heq,
        run_sgrSeq pal (parseSgrParameters pal sty (paramsOfArgs args)) args hall hlen']
      rw [parseSgr_idem pal sty (paramsOfArgs args)]
      have heq2 : Style.equals (parseSgrParameters pal sty (paramsOfArgs args))
          (parseSgrParameters pal sty (paramsOfArgs args)) = true :=
        (Style.equals_iff _ _).mpr rfl
      rw [if_pos heq2, if_pos heq2]
      dsimp only
      rw [styleEvents_append]
      simp [styleEvents]

/-- C9 witness: the sequence `ESC[1m` from the empty style publishes exactly
the bold style once, and doubled publishes it at most once. -/
theorem c9_witness :
    (styleEvents (push defaultPalette ⟨.Text, [], [], {}⟩
          (escCh :: '[' :: (['1'] ++ ['m']))).2
        = if Style.equals {} (parseSgrParameters defaultPalette {} (paramsOfArgs ['1']))
          then [] else [parseSgrParameters defaultPalette {} (paramsOfArgs ['1'])]) ∧
    (Style.equals {} (parseSgrParameters defaultPalette {} (paramsOfArgs ['1'])) = true
        ↔ ({} : Style) = parseSgrParameters defaultPalette {} (paramsOfArgs ['1'])) ∧
    (styleEvents (push defaultPalette ⟨.Text, [], [], {}⟩
        ((escCh :: '[' :: (['1'] ++ ['m'])) ++ escCh :: '[' :: (['1'] ++ ['m']))).2).length
      ≤ 1 :=
  c9_style_event_iff defaultPalette {} ['1'] (by decide) (by decide)

/-! ## Claim C8: HTML escaping and control-picture substitution -/

theorem escapeHtml_singleton (c : Char) :
    escapeHtml [c] = if isHtmlSpecial c then escTable c else [c] := by
  simp [escapeHtml]

theorem escapeControlHtml_singleton (c : Char) :
    escapeControlHtml [c]
      = if isEscapedControl c || isHtmlSpecial c then escTable c else [c] := by
  simp [escapeControlHtml]

theorem isHtmlSpecial_false_of_low {c : Char} (h : c.toNat ≤ 0x1F) :
    isHtmlSpecial c = false := by
  simp only [isHtmlSpecial, Bool.or_eq_false_iff, beq_eq_false_iff_ne, ne_eq]
  refine ⟨⟨⟨⟨?_, ?_⟩, ?_⟩, ?_⟩, ?_⟩ <;> (rintro rfl; exact absurd h (by decide))

theorem escTable_control {c : Char} (h : isEscapedControl c = true) :
    escTable c = [Char.ofNat (0x2400 + c.toNat)] := by
  have hlow : c.toNat ≤ 0x1F := by
    simp only [isEscapedControl, Bool.or_eq_true, decide_eq_true_eq, Bool.and_eq_true] at h
    omega
  rw [escTable]
  rw [if_neg (by rintro rfl; exact absurd hlow (by decide)),
    if_neg (by rintro rfl; exact absurd hlow (by decide)),
    if_neg (by rintro rfl; exact absurd hlow (by decide)),
    if_neg (by rintro rfl; exact absurd hlow (by decide)),
    if_neg (by rintro rfl; exact absurd hlow (by decide)),
    if_pos h]

/-- C8: the string adapter escapes every text run with the escaper selected
by `escapeControlCodes`; both escapers replace `<`, `>`, `&`, `'`, `"` by
their entities unconditionally; with `escapeControlCodes` on, control codes
0x00–0x07 and 0x0E–0x1F become the control pictures U+2400+v, while
0x08–0x0D are never substituted (by either escaper), and without the option
no control code is substituted at all. -/
theorem c8_escaping (escapeControlCodes : Bool) (b : Bool) (c : Char) (t : List Char) :
    renderEvent escapeControlCodes b (.text t)
      = (b, [.text (escaperOf escapeControlCodes t)]) ∧
    escaperOf true = escapeControlHtml ∧
    escaperOf false = escapeHtml ∧
    escaperOf escapeControlCodes ['<'] = "&lt;".data ∧
    escaperOf escapeControlCodes ['>'] = "&gt;".data ∧
    escaperOf escapeControlCodes ['&'] = "&amp;".data ∧
    escaperOf escapeControlCodes ['\''] = "&#39;".data ∧
    escaperOf escapeControlCodes ['"'] = "&quot;".data ∧
    (c.toNat ≤ 0x07 → escapeControlHtml [c] = [Char.ofNat (0x2400 + c.toNat)]) ∧
    (0x0E ≤ c.toNat → c.toNat ≤ 0x1F →
      escapeControlHtml [c] = [Char.ofNat (0x2400 + c.toNat)]) ∧
    (0x08 ≤ c.toNat → c.toNat ≤ 0x0D → escaperOf escapeControlCodes [c] = [c]) ∧
    (c.toNat ≤ 0x1F → escapeHtml [c] = [c]) := by
  refine ⟨rfl, rfl, rfl, ?_, ?_, ?_, ?_, ?_, ?_, ?_, ?_, ?_⟩
  · cases escapeControlCodes <;> decide
  · cases escapeControlCodes <;> decide
  · cases escapeControlCodes <;> decide
  · cases escapeControlCodes <;> decide
  · cases escapeControlCodes <;> decide
  · intro h
    have hc : isEscapedControl c = true := by
      simp only [isEscapedControl, Bool.or_eq_true, decide_eq_true_eq]
      omega
    rw [escapeControlHtml_singleton, if_pos (by rw [hc]; rfl), escTable_control hc]
  · intro h14 h31
    have hc : isEscapedControl c = true := by
      simp only [isEscapedControl, Bool.or_eq_true, decide_eq_true_eq, Bool.and_eq_true]
      omega
    rw [escapeControlHtml_singleton, if_pos (by rw [hc]; rfl), escTable_control hc]
  · intro h8 h13
    have hc : isEscapedControl c = false := by
      simp only [isEscapedControl, Bool.or_eq_false_iff, decide_eq_false_iff_not,
        Bool.and_eq_false_iff, decide_eq_false_iff_not]
      omega
    have hs : isHtmlSpecial c = false := isHtmlSpecial_false_of_low (by omega)
    cases escapeControlCodes
    · show escapeHtml [c] = [c]
      rw [escapeHtml_singleton, if_neg (by rw [hs]; exact Bool.false_ne_true)]
    · show escapeControlHtml [c] = [c]
      rw [escapeControlHtml_singleton, if_neg (by rw [hc, hs]; exact Bool.false_ne_true)]
  · intro h
    have hs : isHtmlSpecial c = false := isHtmlSpecial_false_of_low h
    rw [escapeHtml_singleton, if_neg (by rw [hs]; exact Bool.false_ne_true)]

/-- C8 witness: the range cases exercised at concrete characters. -/
theorem c8_witness :
    escapeControlHtml ['\x05'] = ['\u2405'] ∧
    escapeControlHtml ['\x1B'] = ['\u241B'] ∧
    escaperOf true ['\x0A'] = ['\x0A'] ∧
    escaperOf false ['\x0A'] = ['\x0A'] ∧
    escapeHtml ['\x1B'] = ['\x1B'] :=
  ⟨(c8_escaping true false '\x05' []).2.2.2.2.2.2.2.2.1 (by decide),
    (c8_escaping true false '\x1B' []).2.2.2.2.2.2.2.2.2.1 (by decide) (by decide),
    (c8_escaping true false '\x0A' []).2.2.2.2.2.2.2.2.2.2.1 (by decide) (by decide),
    (c8_escaping false false '\x0A' []).2.2.2.2.2.2.2.2.2.2.1 (by decide) (by decide),
    (c8_escaping false false '\x1B' []).2.2.2.2.2.2.2.2.2.2.2 (by decide)⟩

/-! ## Claim C10: span balance in the adapter output -/

/-- Number of `<span ...>` pieces. -/
def countOpen : List Piece → Nat
  | [] => 0
  | .spanOpen _ :: r => countOpen r + 1
  | _ :: r => countOpen r

/-- Number of `</span>` pieces. -/
def countClose : List Piece → Nat
  | [] => 0
  | .spanClose :: r => countClose r + 1
  | _ :: r => countClose r

/-- `wellNested k ps`: starting with `k` open spans (0 or 1), every
`spanOpen` occurs with no span open, every `spanClose` with exactly one
open, and every span is closed by the end. -/
def wellNested : Nat → List Piece → Bool
  | k, [] => k == 0
  | k, .text _ :: r => wellNested k r
  | k, .spanOpen _ :: r => k == 0 && wellNested 1 r
  | k, .spanClose :: r => k == 1 && wellNested 0 r

/-- The number of open spans tracked by the `inSpan` flag. -/
def bn (b : Bool) : Nat := if b then 1 else 0

theorem wellNested_counts :
    ∀ (ps : List Piece) (k : Nat), wellNested k ps = true →
      (∀ n, countClose (ps.take n) ≤ countOpen (ps.take n) + k ∧
        countOpen (ps.take n) + k ≤ countClose (ps.take n) + 1) ∧
      countClose ps = countOpen ps + k := by
  intro ps
  induction ps with
  | nil =>
    intro k h
    have hk : k = 0 := by simpa [wellNested] using h
    subst hk
    refine ⟨fun n => ?_, rfl⟩
    simp [countOpen, countClose]
  | cons p r ih =>
    intro k h
    cases p with
    | text t =>
      have hr := ih k (by simpa [wellNested] using h)
      have hk : k ≤ 1 := by
        have := (hr.1 0).2
        simpa [countOpen, countClose] using this
      refine ⟨fun n => ?_, ?_⟩
      · cases n with
        | zero => simp [countOpen, countClose]; omega
        | succ m =>
          have := hr.1 m
          simpa [countOpen, countClose] using this
      · simpa [countOpen, countClose] using hr.2
    | spanOpen s =>
      rw [show wellNested k (Piece.spanOpen s :: r) = (k == 0 && wellNested 1 r) from rfl,
        Bool.and_eq_true] at h
      have hk : k = 0 := by simpa using h.1
      subst hk
      have hr := ih 1 h.2
      refine ⟨fun n => ?_, ?_⟩
      · cases n with
        | zero => simp [countOpen, countClose]
        | succ m =>
          have := hr.1 m
          simp only [List.take_succ_cons, countOpen, countClose] at this ⊢
          omega
      · have := hr.2
        simp only [countOpen, countClose] at this ⊢
        omega
    | spanClose =>
      rw [show wellNested k (Piece.spanClose :: r) = (k == 1 && wellNested 0 r) from rfl,
        Bool.and_eq_true] at h
      have hk : k = 1 := by simpa using h.1
      subst hk
      have hr := ih 0 h.2
      refine ⟨fun n => ?_, ?_⟩
      · cases n with
        | zero => simp [countOpen, countClose]
        | succ m =>
          have := hr.1 m
          simp only [List.take_succ_cons, countOpen, countClose] at this ⊢
          omega
      · have := hr.2
        simp only [countOpen, countClose] at this ⊢
        omega

theorem renderEvents_wn (flag : Bool) :
    ∀ (es : List Event) (b : Bool),
      wellNested (bn b)
        ((renderEvents flag b es).2
          ++ if (renderEvents flag b es).1 then [.spanClose] else []) = true := by
  intro es
  induction es with
  | nil => intro b; cases b <;> rfl
  | cons e rest ih =>
    intro b
    cases e with
    | text t => exact ih b
    | style s =>
      show wellNested (bn b)
        (((if b then [Piece.spanClose] else [])
            ++ (if !s.isEmpty then [Piece.spanOpen s] else [])
            ++ (renderEvents flag (!s.isEmpty) rest).2)
          ++ if (renderEvents flag (!s.isEmpty) rest).1 then [.spanClose] else []) = true
      cases hb : b <;> cases hse : s.isEmpty
      · have := ih true
        simpa [wellNested, bn, hse] using this
      · have := ih false
        simpa [wellNested, bn, hse] using this
      · have := ih true
        simpa [wellNested, bn, hse] using this
      · have := ih false
        simpa [wellNested, bn, hse] using this

theorem renderEvents_opens (flag : Bool) :
    ∀ (es : List Event) (b : Bool) (s : Style),
      Piece.spanOpen s ∈ (renderEvents flag b es).2 → s.isEmpty = false := by
  intro es
  induction es with
  | nil =>
    intro b s h
    exact absurd h (List.not_mem_nil _)
  | cons e rest ih =>
    intro b s h
    cases e with
    | text t =>
      replace h : Piece.spanOpen s
          ∈ Piece.text (escaperOf flag t) :: (renderEvents flag b rest).2 := h
      rcases List.mem_cons.mp h with h1 | h2
      · exact absurd h1 (by simp)
      · exact ih b s h2
    | style s' =>
      replace h : Piece.spanOpen s
          ∈ ((if b then [Piece.spanClose] else [])
              ++ (if !s'.isEmpty then [Piece.spanOpen s'] else []))
            ++ (renderEvents flag (!s'.isEmpty) rest).2 := h
      rcases List.mem_append.mp h with h1 | h2
      · rcases List.mem_append.mp h1 with hc | ho
        · cases b <;> simp at hc
        · cases hse : s'.isEmpty
          · rw [hse] at ho
            simp at ho
            rw [ho]
            exact hse
          · rw [hse] at ho
            simp at ho
      · exact ih (!s'.isEmpty) s h2

/-- C10: the adapter output is a balanced, never-nested span stream: at
every prefix the `</span>` count never exceeds the `<span ...>` count and
the `<span ...>` count exceeds the `</span>` count by at most one; after
`flush` the two counts are equal; and every opened span carries a non-empty
style. -/
theorem c10_span_balance (pal : Palette) (flag : Bool) (chunks : List (List Char)) :
    wellNested 0 (pipelinePieces pal flag chunks) = true ∧
    (∀ n, countClose ((pipelinePieces pal flag chunks).take n)
        ≤ countOpen ((pipelinePieces pal flag chunks).take n) ∧
      countOpen ((pipelinePieces pal flag chunks).take n)
        ≤ countClose ((pipelinePieces pal flag chunks).take n) + 1) ∧
    countOpen (pipelinePieces pal flag chunks)
      = countClose (pipelinePieces pal flag chunks) ∧
    (∀ s, Piece.spanOpen s ∈ pipelinePieces pal flag chunks → s.isEmpty = false) := by
  have hwn : wellNested 0 (pipelinePieces pal flag chunks) = true :=
    renderEvents_wn flag (pipelineEvents pal chunks) false
  have hc := wellNested_counts (pipelinePieces pal flag chunks) 0 hwn
  refine ⟨hwn, fun n => ?_, ?_, fun s hs => ?_⟩
  · have := hc.1 n
    omega
  · have := hc.2
    omega
  · rw [pipelinePieces] at hs
    rcases List.mem_append.mp hs with h1 | h2
    · exact renderEvents_opens flag (pipelineEvents pal chunks) false s h1
    · split at h2 <;> simp at h2

end Sgrp
